import Mathlib

/-!
Verification development for the IC tester sketch (IC_tester.ino).

The sketch is embedded shallowly: Arduino pin state becomes an explicit
simulator state (`Sim`), serial prints / pin writes / mode changes /
delays / reads become an event trace (`Ev`), and the flash-resident chip
catalog becomes a `List Char` read through a null-padded peek (reading
past the end of a C string yields the NUL byte, which the source tests
for).  `digitalRead` results are supplied by an oracle `env : Nat → Bool`
indexed by a running read counter, so every possible device behaviour is
covered.
-/

namespace ICTester

/-- Arduino pin modes used by the sketch (`INPUT`, `OUTPUT`, `INPUT_PULLUP`). -/
inductive PMode where
  | input
  | output
  | inputPullup
deriving DecidableEq, Repr

/-- Observable events: pin writes, pin-mode changes, pin reads, delays and
serial messages. -/
inductive Ev where
  | write (pin : Nat) (hi : Bool)
  | setMode (pin : Nat) (m : PMode)
  | readPin (pin : Nat) (v : Bool)
  | wait (ms : Nat)
  | msg (s : String)
deriving DecidableEq, Repr

/-- Simulated electrical state: the mode and output-register level of every
Arduino pin, plus a running counter of `digitalRead` calls (used to index
the read oracle). -/
structure Sim where
  mode : Nat → PMode
  level : Nat → Bool
  nreads : Nat

/-- A simulator whose pins all float as inputs, levels low, no reads done. -/
def initSim : Sim := ⟨fun _ => PMode.input, fun _ => false, 0⟩

-- Pin maps from the configuration section (A0..A5 are Arduino pins 14..19).

def chipPins4 : List Nat := [10, 9, 15, 14]
def chipPins6 : List Nat := [10, 9, 8, 16, 15, 14]
def chipPins8 : List Nat := [10, 9, 8, 7, 17, 16, 15, 14]
def chipPins10 : List Nat := [10, 9, 8, 7, 6, 18, 17, 16, 15, 14]
def chipPins12 : List Nat := [10, 9, 8, 7, 6, 5, 19, 18, 17, 16, 15, 14]
def chipPins14 : List Nat := [10, 9, 8, 7, 6, 5, 4, 12, 19, 18, 17, 16, 15, 14]
def chipPins16 : List Nat := [10, 9, 8, 7, 6, 5, 4, 3, 11, 12, 19, 18, 17, 16, 15, 14]

/-- DuT pin considered ground, alternative A. -/
def DUT_GROUND_A : Nat := 7
/-- Arduino pin wired as the hard-ground override for DuT pin 7. -/
def GROUND_PINA : Nat := 2
/-- DuT pin considered ground, alternative B. -/
def DUT_GROUND_B : Nat := 8
/-- Arduino pin wired as the hard-ground override for DuT pin 8. -/
def GROUND_PINB : Nat := 13

/-- Serial-input buffer size. -/
def MAX_INPUT : Nat := 16
/-- Clock pulse width in ms. -/
def CLOCK_PULSE_WIDTH : Nat := 10
/-- Output settle time in ms. -/
def DATA_SETTLE_TIME : Nat := 10

/-- `digitalWrite`: set the output register of a pin, emit the event. -/
def digW (pin : Nat) (hi : Bool) (s : Sim) : Sim × List Ev :=
  ({ s with level := fun q => if q = pin then hi else s.level q }, [Ev.write pin hi])

/-- `pinMode`: set the mode of a pin, emit the event. -/
def setMode (pin : Nat) (m : PMode) (s : Sim) : Sim × List Ev :=
  ({ s with mode := fun q => if q = pin then m else s.mode q }, [Ev.setMode pin m])

/-!
`singleTest` (IC_tester.ino lines 262-434) is decomposed into its phases,
each a fold over the test line zipped with the pin map (the source indexes
`testLine [i]` and `pinsMap [i]` for `i < numberOfPins`; both have exactly
`numberOfPins` entries at every call site).
-/

/-- Phase 1 of `singleTest`: set ground pins LOW (with the hard-ground
override when the `G` directive sits at DuT pin `DUT_GROUND_A` or
`DUT_GROUND_B`; `i` is the zero-based index of the first list entry). -/
def groundPhase : List (Char × Nat) → Nat → Sim → Sim × List Ev
  | [], _, s => (s, [])
  | (c, ch) :: rest, i, s =>
    if c = 'G' then
      let (s1, t1) := digW ch false s
      let (s2, t2) := setMode ch PMode.output s1
      let (s3, t3) :=
        if i + 1 = DUT_GROUND_A then
          let (sa, ta) := digW GROUND_PINA false s2
          let (sb, tb) := setMode GROUND_PINA PMode.output sa
          (sb, ta ++ tb)
        else if i + 1 = DUT_GROUND_B then
          let (sa, ta) := digW GROUND_PINB false s2
          let (sb, tb) := setMode GROUND_PINB PMode.output sa
          (sb, ta ++ tb)
        else (s2, [])
      let (s4, t4) := groundPhase rest (i + 1) s3
      (s4, t1 ++ t2 ++ t3 ++ t4)
    else
      groundPhase rest (i + 1) s

/-- Phase 2 of `singleTest`: set power (`V`) pins HIGH. -/
def powerPhase : List (Char × Nat) → Sim → Sim × List Ev
  | [], s => (s, [])
  | (c, ch) :: rest, s =>
    if c = 'V' then
      let (s1, t1) := digW ch true s
      let (s2, t2) := setMode ch PMode.output s1
      let (s3, t3) := powerPhase rest s2
      (s3, t1 ++ t2 ++ t3)
    else
      powerPhase rest s

/-- Phase 3 of `singleTest`: drive input pins (`0`/`C` low, `1`/`c` high). -/
def inputPhase : List (Char × Nat) → Sim → Sim × List Ev
  | [], s => (s, [])
  | (c, ch) :: rest, s =>
    if c = '0' ∨ c = 'C' then
      let (s1, t1) := digW ch false s
      let (s2, t2) := setMode ch PMode.output s1
      let (s3, t3) := inputPhase rest s2
      (s3, t1 ++ t2 ++ t3)
    else if c = '1' ∨ c = 'c' then
      let (s1, t1) := digW ch true s
      let (s2, t2) := setMode ch PMode.output s1
      let (s3, t3) := inputPhase rest s2
      (s3, t1 ++ t2 ++ t3)
    else
      inputPhase rest s

/-- Phase 4 of `singleTest`: prepare expected-output pins (`H`: briefly drive
low then float; `L`: float with pull-up). -/
def outputPhase : List (Char × Nat) → Sim → Sim × List Ev
  | [], s => (s, [])
  | (c, ch) :: rest, s =>
    if c = 'H' then
      let (s1, t1) := digW ch false s
      let (s2, t2) := setMode ch PMode.output s1
      let (s3, t3) := setMode ch PMode.input s2
      let (s4, t4) := outputPhase rest s3
      (s4, t1 ++ t2 ++ t3 ++ t4)
    else if c = 'L' then
      let (s1, t1) := setMode ch PMode.inputPullup s
      let (s2, t2) := outputPhase rest s1
      (s2, t1 ++ t2)
    else
      outputPhase rest s

/-- Number of clock directives (`C` or `c`) in a line. -/
def countClocks : List (Char × Nat) → Nat
  | [] => 0
  | (c, _) :: rest => (if c = 'C' ∨ c = 'c' then 1 else 0) + countClocks rest

/-- Clock pulse: drive each `C` pin HIGH and each `c` pin LOW. -/
def pulseSet : List (Char × Nat) → Sim → Sim × List Ev
  | [], s => (s, [])
  | (c, ch) :: rest, s =>
    if c = 'C' then
      let (s1, t1) := digW ch true s
      let (s2, t2) := pulseSet rest s1
      (s2, t1 ++ t2)
    else if c = 'c' then
      let (s1, t1) := digW ch false s
      let (s2, t2) := pulseSet rest s1
      (s2, t1 ++ t2)
    else
      pulseSet rest s

/-- Clock restore: put each `C` pin back LOW and each `c` pin back HIGH. -/
def pulseRestore : List (Char × Nat) → Sim → Sim × List Ev
  | [], s => (s, [])
  | (c, ch) :: rest, s =>
    if c = 'C' then
      let (s1, t1) := digW ch false s
      let (s2, t2) := pulseRestore rest s1
      (s2, t1 ++ t2)
    else if c = 'c' then
      let (s1, t1) := digW ch true s
      let (s2, t2) := pulseRestore rest s1
      (s2, t1 ++ t2)
    else
      pulseRestore rest s

/-- The events emitted by `pulseSet`, as a pure function of the line. -/
def pulseSetTrace : List (Char × Nat) → List Ev
  | [] => []
  | (c, ch) :: rest =>
    if c = 'C' then Ev.write ch true :: pulseSetTrace rest
    else if c = 'c' then Ev.write ch false :: pulseSetTrace rest
    else pulseSetTrace rest

/-- The events emitted by `pulseRestore`, as a pure function of the line. -/
def pulseRestoreTrace : List (Char × Nat) → List Ev
  | [] => []
  | (c, ch) :: rest =>
    if c = 'C' then Ev.write ch false :: pulseRestoreTrace rest
    else if c = 'c' then Ev.write ch true :: pulseRestoreTrace rest
    else pulseRestoreTrace rest

/-- `showNumber`: space-pad a zero-relative test number and add one. -/
def showNumber (n : Nat) : String :=
  (if n < 9 then " " else "") ++ Nat.repr (n + 1)

/-- Render a test line for messages. -/
def lineStr (line : List (Char × Nat)) : String :=
  String.mk (line.map Prod.fst)

/-- Sample phase of `singleTest`: read each `H`/`L` pin through the oracle,
count mismatches, with verbose diagnostics.  `i` is the zero-based pin
index of the first entry, `failed` the running mismatch count. -/
def readPhase (verbose : Bool) (env : Nat → Bool) :
    List (Char × Nat) → Nat → Nat → Sim → Nat × Sim × List Ev
  | [], _, failed, s => (failed, s, [])
  | (c, ch) :: rest, i, failed, s =>
    if c = 'H' then
      let v := env s.nreads
      let s1 : Sim := { s with nreads := s.nreads + 1 }
      if v = true then
        let (f2, s2, t2) := readPhase verbose env rest (i + 1) failed s1
        (f2, s2, Ev.readPin ch v :: t2)
      else
        let tp : List Ev :=
          if verbose then
            (if failed = 0 then [Ev.msg ""] else []) ++
              [Ev.msg ("  Pin " ++ Nat.repr (i + 1) ++ " should be HIGH but is LOW")]
          else []
        let (f2, s2, t2) := readPhase verbose env rest (i + 1) (failed + 1) s1
        (f2, s2, Ev.readPin ch v :: (tp ++ t2))
    else if c = 'L' then
      let v := env s.nreads
      let s1 : Sim := { s with nreads := s.nreads + 1 }
      if v = false then
        let (f2, s2, t2) := readPhase verbose env rest (i + 1) failed s1
        (f2, s2, Ev.readPin ch v :: t2)
      else
        let tp : List Ev :=
          if verbose then
            (if failed = 0 then [Ev.msg ""] else []) ++
              [Ev.msg ("  Pin " ++ Nat.repr (i + 1) ++ " should be LOW but is HIGH")]
          else []
        let (f2, s2, t2) := readPhase verbose env rest (i + 1) (failed + 1) s1
        (f2, s2, Ev.readPin ch v :: (tp ++ t2))
    else
      readPhase verbose env rest (i + 1) failed s

/-- `singleTest` (IC_tester.ino lines 262-434): execute one test vector.
Returns the mismatch count, the final pin state and the event trace. -/
def singleTest (line : List (Char × Nat)) (testNumber : Nat) (verbose : Bool)
    (env : Nat → Bool) (s : Sim) : Nat × Sim × List Ev :=
  let t0 : List Ev :=
    if verbose then
      [Ev.msg ("Testing case " ++ showNumber testNumber ++ ": " ++ lineStr line)]
    else []
  let (s1, t1) := groundPhase line 0 s
  let (s2, t2) := powerPhase line s1
  let (s3, t3) := inputPhase line s2
  let (s4, t4) := outputPhase line s3
  let clocks := countClocks line
  let (s5, t5) := pulseSet line s4
  let (s6, t6) :=
    if clocks ≠ 0 then
      let (sr, tr) := pulseRestore line s5
      (sr, Ev.wait CLOCK_PULSE_WIDTH :: tr)
    else (s5, [])
  let t7 : List Ev := [Ev.wait DATA_SETTLE_TIME]
  let (failed, s8, t8) := readPhase verbose env line 0 0 s6
  let t9 : List Ev :=
    if verbose then
      if failed ≠ 0 then
        [Ev.msg ("  ** Failed test " ++ showNumber testNumber ++ ": " ++ lineStr line)]
      else [Ev.msg " ok"]
    else []
  (failed, s8, t0 ++ t1 ++ t2 ++ t3 ++ t4 ++ t5 ++ t6 ++ t7 ++ t8 ++ t9)

/-- Set every pin of a list to INPUT. -/
def setAllInputs : List Nat → Sim → Sim × List Ev
  | [], s => (s, [])
  | ch :: rest, s =>
    let (s1, t1) := setMode ch PMode.input s
    let (s2, t2) := setAllInputs rest s1
    (s2, t1 ++ t2)

/-- `setAllPinsToInput` (lines 437-445): all chip pins plus the two
ground-override pins go back to high-impedance INPUT. -/
def setAllPinsToInput (pins : List Nat) (s : Sim) : Sim × List Ev :=
  let (s1, t1) := setAllInputs pins s
  let (s2, t2) := setMode GROUND_PINA PMode.input s1
  let (s3, t3) := setMode GROUND_PINB PMode.input s2
  (s3, t1 ++ t2 ++ t3)

/-!
Catalog-stream utilities.  The catalog lives in flash as a C string; the
source reads it with `pgm_read_byte`, so reading at (or past) the
terminating null yields byte 0.  A stream position is the remaining
suffix, and peeking an empty suffix yields NUL.
-/

/-- The NUL byte terminating the catalog C string. -/
def NUL : Char := Char.ofNat 0

/-- Read the byte at the current stream position (NUL past the end). -/
def peekC (l : List Char) : Char := l.headD NUL

/-- C `isspace`: space, tab, newline, vertical tab, form feed, return. -/
def isspaceC (c : Char) : Bool :=
  c == ' ' || c == '\t' || c == '\n' || c == Char.ofNat 11 || c == Char.ofNat 12 || c == '\r'

/-- `while (isspace (pgm_read_byte (p))) p++` — skip leading whitespace. -/
def skipSpaces : List Char → List Char
  | [] => []
  | c :: rest => if isspaceC c then skipSpaces rest else c :: rest

/-- Accumulate the decimal digits of a C `atoi`, stopping at the first
non-digit. -/
def digitsVal : List Char → Nat → Nat
  | [], acc => acc
  | c :: rest, acc =>
    if c.isDigit then digitsVal rest (acc * 10 + (c.toNat - '0'.toNat)) else acc

/-- C `atoi`: skip whitespace, optional sign, then digits. -/
def atoiChars (l : List Char) : Int :=
  match skipSpaces l with
  | '-' :: rest => - (digitsVal rest 0 : Int)
  | '+' :: rest => (digitsVal rest 0 : Int)
  | l1 => (digitsVal l1 0 : Int)

/-- The characters of the 2-byte `pinsBuf` C string (stops at a NUL). -/
def cbuf (c1 c2 : Char) : List Char :=
  if c1 = NUL then [] else if c2 = NUL then [c1] else [c1, c2]

/-- Truncation of an `int` into the global `byte numberOfPins`. -/
def byteOf (i : Int) : Nat := (i % 256).toNat

/-- The pin count parsed from the two-character pin-count field, as the
`byte` global ends up holding it (`numberOfPins = atoi (pinsBuf)`). -/
def pinsOf (c1 c2 : Char) : Nat := byteOf (atoiChars (cbuf c1 c2))

/-- Rendering of `pinsBuf` for error messages. -/
def bufStr (c1 c2 : Char) : String := String.mk (cbuf c1 c2)

/-- The `switch (numberOfPins)` of `testChip`/`scanChips`: the pin map for a
supported pin count, `none` for the `default:` branch. -/
def mapFor : Nat → Option (List Nat)
  | 4 => some chipPins4
  | 6 => some chipPins6
  | 8 => some chipPins8
  | 10 => some chipPins10
  | 12 => some chipPins12
  | 14 => some chipPins14
  | 16 => some chipPins16
  | _ => none

/-- The recognized directive alphabet of the vector interpreter. -/
def validDirective (c : Char) : Bool :=
  c == 'H' || c == 'L' || c == 'V' || c == 'G' || c == '0' || c == '1' ||
    c == 'C' || c == 'c' || c == 'X'

/-- Result of reading one vector line of `numberOfPins` characters:
`done` when the record ended (`$`, NUL or `&` at the first position),
`bad c` when a character outside the alphabet was met, or the completed
line with the rest of the stream. -/
inductive VecRes where
  | done
  | bad (c : Char)
  | ok (line : List Char) (rest : List Char)
deriving DecidableEq, Repr

/-- Read `n` directive characters (the inner `for` loop of `testChip`,
lines 531-568).  `first` records whether we are at loop index 0, where a
`$`/NUL/`&` terminates the chip instead of being validated. -/
def readVec : Nat → Bool → List Char → List Char → VecRes
  | 0, _, acc, p => VecRes.ok acc p
  | n + 1, first, acc, p =>
    let c := peekC p
    if first && (c == '$' || c == NUL || c == '&') then VecRes.done
    else if validDirective c then readVec n false (acc ++ [c]) p.tail
    else VecRes.bad c

/-- How `testChip` can come back. -/
inductive TCOut where
  | ok
  | noChip
  | unsupported
  | badChar (c : Char)
  | noSpace
  | fuelOut
deriving DecidableEq, Repr

/-- Result of the per-vector loop of `testChip`. -/
structure LoopRes where
  sim : Sim
  tr : List Ev
  fails : List Nat
  out : TCOut

/-- The `while (true)` test-case loop of `testChip` (lines 525-590): skip
whitespace, read a vector, abort (restoring pins) on a bad character or a
missing separator, run `singleTest` and recurse otherwise.  `fuel` bounds
the recursion; `testChip` passes `p.length + 1`, which is proven
sufficient (`runVectors` never returns `.fuelOut` then). -/
def runVectors (pins : List Nat) (n : Nat) (name : List Char) (verbose : Bool)
    (env : Nat → Bool) : Nat → List Char → Nat → Sim → LoopRes
  | 0, _, _, s => ⟨s, [], [], TCOut.fuelOut⟩
  | fuel + 1, p, testNumber, s =>
    let p1 := skipSpaces p
    match readVec n true [] p1 with
    | VecRes.done => ⟨s, [], [], TCOut.ok⟩
    | VecRes.bad c =>
        let (s1, t1) := setAllPinsToInput pins s
        ⟨s1, t1 ++ [Ev.msg ("Unexpected test data: '" ++ String.mk [c] ++
            "' in test number " ++ showNumber testNumber ++ " for " ++ String.mk name)],
          [], TCOut.badChar c⟩
    | VecRes.ok line p2 =>
        if isspaceC (peekC p2) then
          let (f, s1, t1) := singleTest (line.zip pins) testNumber verbose env s
          let r := runVectors pins n name verbose env fuel p2 (testNumber + 1) s1
          ⟨r.sim, t1 ++ r.tr, f :: r.fails, r.out⟩
        else
          let (s1, t1) := setAllPinsToInput pins s
          ⟨s1, t1 ++ [Ev.msg ("Expected space/newline, but did not get it in test number " ++
              showNumber testNumber ++ " for " ++ String.mk name)],
            [], TCOut.noSpace⟩

/-- The global variables of the sketch that the navigator mutates. -/
structure Glob where
  pinsMap : List Nat
  numberOfPins : Nat
  chipInfo : Option (List Char)
  chipName : List Char
deriving DecidableEq, Repr

/-- Result of `testChip`: final globals, final pin state, event trace,
per-vector mismatch counts, and which exit path was taken. -/
structure TCRes where
  glob : Glob
  sim : Sim
  tr : List Ev
  fails : List Nat
  out : TCOut

/-- The pin-touching part of `testChip` once the pin map is resolved:
float all pins, run every vector, and on normal completion float all
pins again and emit the summary messages. -/
def testChipRun (name : List Char) (pins : List Nat) (v : Nat) (verbose : Bool)
    (env : Nat → Bool) (p2 : List Char) (s : Sim) : LoopRes :=
  let (s0, ti) := setAllPinsToInput pins s
  let r := runVectors pins v name verbose env (p2.length + 1) p2 0 s0
  match r.out with
  | TCOut.ok =>
      let (s1, tf) := setAllPinsToInput pins r.sim
      let failures := r.fails.sum
      let t2 : List Ev :=
        if verbose then
          [Ev.msg ("Done - " ++
            (if failures ≠ 0 then "FAILED - " ++ Nat.repr failures ++ " failure(s)"
             else "passed."))]
        else
          if failures = 0 then
            [Ev.msg (String.mk name ++ " detected.")]
          else []
      let t3 : List Ev :=
        if verbose then [Ev.msg "Enter T to test another chip of the same type."]
        else []
      ⟨s1, ti ++ r.tr ++ tf ++ t2 ++ t3, r.fails, TCOut.ok⟩
  | out => ⟨r.sim, ti ++ r.tr, r.fails, out⟩

/-- `testChip` (lines 448-622): check there is a current chip, parse the
two-digit pin-count field, resolve the pin map (aborting on the
`default:` branch without touching any pin), then run all the vectors
through `testChipRun`. -/
def testChip (verbose : Bool) (env : Nat → Bool) (g : Glob) (s : Sim) : TCRes :=
  match g.chipInfo with
  | none =>
      ⟨g, s, [Ev.msg "No current chip. Enter its code to find it in the table"], [],
        TCOut.noChip⟩
  | some p =>
      let t0 : List Ev :=
        if verbose then [Ev.msg ("Testing " ++ String.mk g.chipName)] else []
      let c1 := peekC p
      let c2 := peekC p.tail
      let v := pinsOf c1 c2
      let g1 : Glob := { g with numberOfPins := v }
      match mapFor v with
      | none =>
          ⟨g1, s, t0 ++ [Ev.msg ("Unsupported number of pins for " ++
              String.mk g.chipName ++ ": " ++ bufStr c1 c2)], [], TCOut.unsupported⟩
      | some pins =>
          let g2 : Glob := { g1 with pinsMap := pins }
          let t1 : List Ev :=
            if verbose then [Ev.msg ("Number of pins: " ++ bufStr c1 c2)] else []
          let rr := testChipRun g2.chipName pins v verbose env p.tail.tail s
          ⟨g2, rr.sim, t0 ++ t1 ++ rr.tr, rr.fails, rr.out⟩

/-!
`searchForChip` (lines 198-251): a flat scan of the catalog stream.  The
state carried across characters is whether a `$` has started a name and
the (length-limited) name collected so far.
-/

/-- One-record name accumulation guard: characters beyond `MAX_INPUT` are
dropped (`if (nameLength < MAX_INPUT)`). -/
def accPush (acc : List Char) (c : Char) : List Char :=
  if acc.length < MAX_INPUT then acc ++ [c] else acc

/-- The scan loop of `searchForChip`.  `got = some acc` while collecting a
name started by `$`.  Returns the `bool` result together with the final
globals (`chipInfo`, `chipName`). -/
def searchLoop (which : List Char) : List Char → Option (List Char) → Glob → Bool × Glob
  | [], _, g => (false, { g with chipInfo := none, chipName := [] })
  | c :: rest, got, g =>
    if c = NUL ∨ c = '&' then
      (false, { g with chipInfo := none, chipName := [] })
    else if c = '$' then
      searchLoop which rest (some []) g
    else if c = '\n' then
      match got with
      | some acc =>
          if which = acc then
            (true, { g with chipInfo := some rest, chipName := acc })
          else
            searchLoop which rest none g
      | none => searchLoop which rest none g
    else
      match got with
      | some acc => searchLoop which rest (some (accPush acc c)) g
      | none => searchLoop which rest none g

/-- `searchForChip`: find a chip by (already upper-cased) name in the
catalog; on success `chipInfo` is the stream position right after the
name line's newline, on failure it is cleared along with `chipName`. -/
def searchForChip (which : List Char) (catalog : List Char) (g : Glob) : Bool × Glob :=
  searchLoop which catalog none g

/-- Result of `scanChips`: final globals and pin state, the event trace,
the `count` of candidates tried, the (name, pin count) of each tested
record (an observer of which records were actually tested), and whether
the scan aborted on an unsupported pin count. -/
structure ScanRes where
  glob : Glob
  sim : Sim
  tr : List Ev
  count : Nat
  tested : List (List Char × Nat)
  aborted : Bool

/-- The scan loop of `scanChips` (lines 635-717).  On each name line it
parses (without consuming) the two-digit pin-count field, updates the
`numberOfPins`/`pinsMap` globals, and runs a non-verbose `testChip` when
the count matches the requested one. -/
def scanLoop (pins : Nat) (env : Nat → Bool) :
    List Char → Option (List Char) → Glob → Sim → Nat → ScanRes
  | [], _, g, s, count =>
      ⟨{ g with chipInfo := none }, s,
        [Ev.msg ("Chip scan completed. Checked against data for " ++ Nat.repr count ++
          " types of " ++ Nat.repr pins ++ "-pin chips.")], count, [], false⟩
  | c :: rest, got, g, s, count =>
    if c = NUL ∨ c = '&' then
      ⟨{ g with chipInfo := none }, s,
        [Ev.msg ("Chip scan completed. Checked against data for " ++ Nat.repr count ++
          " types of " ++ Nat.repr pins ++ "-pin chips.")], count, [], false⟩
    else if c = '$' then
      scanLoop pins env rest (some []) g s count
    else if c = '\n' then
      match got with
      | some acc =>
          let g1 : Glob := { g with chipName := acc }
          let c1 := peekC rest
          let c2 := peekC rest.tail
          let v := pinsOf c1 c2
          let g2 : Glob := { g1 with numberOfPins := v }
          match mapFor v with
          | none =>
              ⟨{ g2 with chipInfo := some rest }, s,
                [Ev.msg ("Unsupported number of pins for " ++ String.mk acc ++ ": " ++
                  bufStr c1 c2)], count, [], true⟩
          | some pmap =>
              let g3 : Glob := { g2 with pinsMap := pmap }
              if pins = v then
                let r := testChip false env { g3 with chipInfo := some rest } s
                let r2 := scanLoop pins env rest none r.glob r.sim (count + 1)
                ⟨r2.glob, r2.sim, r.tr ++ r2.tr, r2.count, (acc, v) :: r2.tested, r2.aborted⟩
              else
                scanLoop pins env rest none g3 s count
      | none => scanLoop pins env rest none g s count
    else
      match got with
      | some acc => scanLoop pins env rest (some (accPush acc c)) g s count
      | none => scanLoop pins env rest none g s count

/-- `scanChips` (lines 624-727): test every catalog record of the requested
pin count against the device. -/
def scanChips (pins : Nat) (env : Nat → Bool) (catalog : List Char) (g : Glob)
    (s : Sim) : ScanRes :=
  let r := scanLoop pins env catalog none g s 0
  { r with tr := Ev.msg "Scanning for known chips ..." :: r.tr }

/-- C `toupper` on ASCII letters, as applied to incoming serial bytes. -/
def toupperC (c : Char) : Char :=
  if 'a' ≤ c ∧ c ≤ 'z' then Char.ofNat (c.toNat - 32) else c

/-- `processIncomingByte` (lines 759-789) folded over a byte sequence:
newline completes a line, carriage returns and spaces are dropped, other
bytes are upper-cased and appended only while the buffer holds fewer than
`MAX_INPUT - 1` characters.  Returns the completed lines and the pending
buffer. -/
def procBytes : List Char → List Char → List (List Char) × List Char
  | [], acc => ([], acc)
  | b :: rest, acc =>
    if b = '\n' then
      let (ls, fin) := procBytes rest []
      (acc :: ls, fin)
    else if b = '\r' ∨ b = ' ' then
      procBytes rest acc
    else
      procBytes rest (if acc.length < MAX_INPUT - 1 then acc ++ [toupperC b] else acc)

/-! ### Basic state and trace lemmas -/

/-- All pins of a layout, plus the two ground-override pins, are
floating inputs. -/
def allInput (pins : List Nat) (s : Sim) : Prop :=
  (∀ ch ∈ pins, s.mode ch = PMode.input) ∧
    s.mode GROUND_PINA = PMode.input ∧ s.mode GROUND_PINB = PMode.input

instance (pins : List Nat) (s : Sim) : Decidable (allInput pins s) := by
  unfold allInput; infer_instance

theorem setAllInputs_mode (l : List Nat) (s : Sim) (q : Nat) :
    ((setAllInputs l s).1).mode q = if q ∈ l then PMode.input else s.mode q := by
  induction l generalizing s with
  | nil => simp [setAllInputs]
  | cons ch rest ih =>
      simp only [setAllInputs, setMode, ih]
      by_cases hq : q ∈ rest
      · simp [hq]
      · by_cases hc : q = ch <;> simp [hq, hc]

theorem allInput_setAllPinsToInput (pins : List Nat) (s : Sim) :
    allInput pins (setAllPinsToInput pins s).1 := by
  refine ⟨fun ch hch => ?_, ?_, ?_⟩ <;>
    simp [setAllPinsToInput, setMode, setAllInputs_mode, GROUND_PINA, GROUND_PINB]
  intro h1 h2
  simp [hch]

/-- Is an event a serial message? -/
def isMsg : Ev → Bool
  | Ev.msg _ => true
  | _ => false

/-- Is an event a delay? -/
def isWait : Ev → Bool
  | Ev.wait _ => true
  | _ => false

/-- The channel-level events of a trace (everything except messages). -/
def chanEvs (tr : List Ev) : List Ev := tr.filter (fun e => !isMsg e)

/-- The number of delay events in a trace. -/
def countWaits (tr : List Ev) : Nat := (tr.filter isWait).length

/-! ### Fuel sufficiency for the vector loop -/

theorem skipSpaces_length (p : List Char) : (skipSpaces p).length ≤ p.length := by
  induction p with
  | nil => simp [skipSpaces]
  | cons c rest ih =>
      simp only [skipSpaces]
      split
      · exact Nat.le_succ_of_le ih
      · simp

theorem readVec_ok_length (n : Nat) :
    ∀ first acc p l r, readVec n first acc p = VecRes.ok l r → r.length ≤ p.length := by
  induction n with
  | zero =>
      intro first acc p l r h
      simp only [readVec] at h
      cases h
      exact Nat.le_refl _
  | succ m ih =>
      intro first acc p l r h
      simp only [readVec] at h
      split at h
      · cases h
      · split at h
        · have := ih false (acc ++ [peekC p]) p.tail l r h
          calc r.length ≤ p.tail.length := this
            _ ≤ p.length := by
                cases p with
                | nil => simp
                | cons x xs => simp [List.tail_cons]
        · cases h

theorem readVec_ok_lt (n : Nat) (acc p : List Char) (l r : List Char)
    (hn : 1 ≤ n) (h : readVec n true acc p = VecRes.ok l r) : r.length < p.length := by
  match n, hn with
  | m + 1, _ =>
    simp only [readVec] at h
    split at h
    · cases h
    · split at h
      · rename_i hterm hvalid
        match p with
        | [] => exact absurd (by decide) hterm
        | x :: xs =>
            have := readVec_ok_length m false (acc ++ [peekC (x :: xs)]) (x :: xs).tail l r h
            simp only [List.tail_cons] at this
            simp only [List.length_cons]
            omega
      · cases h

theorem runVectors_not_fuelOut (pins : List Nat) (n : Nat) (name : List Char)
    (verbose : Bool) (env : Nat → Bool) :
    ∀ fuel p tn s, 1 ≤ n → p.length < fuel →
      (runVectors pins n name verbose env fuel p tn s).out ≠ TCOut.fuelOut := by
  intro fuel
  induction fuel with
  | zero => intro p tn s _ h; omega
  | succ m ih =>
      intro p tn s hn hlen
      cases hread : readVec n true [] (skipSpaces p) with
      | done => simp [runVectors, hread]
      | bad c => simp [runVectors, hread]
      | ok line p2 =>
          have hlt : p2.length < (skipSpaces p).length :=
            readVec_ok_lt n [] (skipSpaces p) line p2 hn hread
          have hm : p2.length < m := by
            have := skipSpaces_length p
            omega
          by_cases hsp : isspaceC (peekC p2) = true
          · simp only [runVectors, hread, hsp, if_true]
            exact ih p2 (tn + 1) _ hn hm
          · simp [runVectors, hread, hsp]

/-! ### Error aborts restore every pin -/

theorem runVectors_restore (pins : List Nat) (n : Nat) (name : List Char)
    (verbose : Bool) (env : Nat → Bool) :
    ∀ fuel p tn s,
      (runVectors pins n name verbose env fuel p tn s).out ≠ TCOut.ok →
      (runVectors pins n name verbose env fuel p tn s).out ≠ TCOut.fuelOut →
      allInput pins (runVectors pins n name verbose env fuel p tn s).sim := by
  intro fuel
  induction fuel with
  | zero => intro p tn s _ hf; simp [runVectors] at hf
  | succ m ih =>
      intro p tn s hok hf
      cases hread : readVec n true [] (skipSpaces p) with
      | done => exact absurd (by simp [runVectors, hread]) hok
      | bad c =>
          simp only [runVectors, hread]
          exact allInput_setAllPinsToInput pins _
      | ok line p2 =>
          by_cases hsp : isspaceC (peekC p2) = true
          · simp only [runVectors, hread, hsp, if_true] at hok hf ⊢
            exact ih p2 (tn + 1) _ hok hf
          · simp only [runVectors, hread, hsp]
            simp only [Bool.not_eq_true] at hsp
            simp only [hsp, Bool.false_eq_true, if_false]
            exact allInput_setAllPinsToInput pins _

theorem mapFor_pos (v : Nat) (pins : List Nat) (h : mapFor v = some pins) : 1 ≤ v := by
  cases v with
  | zero => simp [mapFor] at h
  | succ n => omega

theorem testChipRun_allInput (name : List Char) (pins : List Nat) (v : Nat)
    (verbose : Bool) (env : Nat → Bool) (p2 : List Char) (s : Sim) (hv : 1 ≤ v) :
    allInput pins (testChipRun name pins v verbose env p2 s).sim := by
  simp only [testChipRun]
  set r := runVectors pins v name verbose env (p2.length + 1) p2 0
    (setAllPinsToInput pins s).1 with hr
  have hnf : r.out ≠ TCOut.fuelOut := by
    rw [hr]
    exact runVectors_not_fuelOut pins v name verbose env (p2.length + 1) p2 0 _ hv
      (Nat.lt_succ_self _)
  have hrest : r.out ≠ TCOut.ok → allInput pins r.sim := by
    intro hne
    rw [hr] at hne hnf ⊢
    exact runVectors_restore pins v name verbose env (p2.length + 1) p2 0 _ hne hnf
  rcases hout : r.out with _ | _ | _ | c | _ | _ <;> simp only [hout]
  · exact allInput_setAllPinsToInput pins _
  · exact hrest (by rw [hout]; simp)
  · exact hrest (by rw [hout]; simp)
  · exact hrest (by rw [hout]; simp)
  · exact hrest (by rw [hout]; simp)
  · exact absurd hout hnf

/-- C1: for every catalog record whose pin-count field resolves to a
supported pin layout, `testChip` leaves every channel of that layout, and
the two ground-override channels, as floating inputs on every exit path
(normal completion, vector mismatches, malformed-vector and
missing-separator aborts). -/
theorem testChip_restores_all_pins (verbose : Bool) (env : Nat → Bool) (g : Glob)
    (s : Sim) (p : List Char) (pins : List Nat)
    (hchip : g.chipInfo = some p)
    (hmap : mapFor (pinsOf (peekC p) (peekC p.tail)) = some pins) :
    (testChip verbose env g s).glob.pinsMap = pins ∧
      allInput pins (testChip verbose env g s).sim := by
  have hv := mapFor_pos _ _ hmap
  simp only [testChip, hchip, hmap]
  constructor
  · trivial
  · exact testChipRun_allInput _ pins _ verbose env _ s hv

/-- Witness for `testChip_restores_all_pins` at a concrete 4-pin record. -/
theorem testChip_restores_all_pins_witness :
    (testChip true (fun _ => false)
        ⟨[], 0, some ("04\n0HHV\n&".toList), []⟩ initSim).glob.pinsMap = chipPins4 ∧
      allInput chipPins4 (testChip true (fun _ => false)
        ⟨[], 0, some ("04\n0HHV\n&".toList), []⟩ initSim).sim :=
  testChip_restores_all_pins true (fun _ => false) ⟨[], 0, some ("04\n0HHV\n&".toList), []⟩
    initSim ("04\n0HHV\n&".toList) chipPins4 rfl (by decide)

/-! ### Unsupported pin counts -/

theorem mapFor_eq_none (v : Nat) (h : v ∉ ([4, 6, 8, 10, 12, 14, 16] : List Nat)) :
    mapFor v = none := by
  rw [mapFor.eq_def]
  split <;> simp_all

/-- C8: when the two-character pin-count field does not parse to a
supported value, `testChip` returns before executing any vector and
before touching any pin; `numberOfPins` keeps the newly parsed value
while `pinsMap` keeps its previous value, and nothing is restored. -/
theorem testChip_unsupported_no_rollback (verbose : Bool) (env : Nat → Bool)
    (g : Glob) (s : Sim) (p : List Char)
    (hchip : g.chipInfo = some p)
    (hv : pinsOf (peekC p) (peekC p.tail) ∉ ([4, 6, 8, 10, 12, 14, 16] : List Nat)) :
    (testChip verbose env g s).out = TCOut.unsupported ∧
    (testChip verbose env g s).sim = s ∧
    (testChip verbose env g s).fails = [] ∧
    (testChip verbose env g s).glob.numberOfPins = pinsOf (peekC p) (peekC p.tail) ∧
    (testChip verbose env g s).glob.pinsMap = g.pinsMap ∧
    (∀ e ∈ (testChip verbose env g s).tr, isMsg e = true) := by
  have hm := mapFor_eq_none _ hv
  simp only [testChip, hchip, hm]
  refine ⟨by trivial, by trivial, by trivial, by trivial, by trivial, ?_⟩
  intro e he
  rcases List.mem_append.1 he with h1 | h1
  · cases verbose with
    | false => simp at h1
    | true =>
        simp only [if_true] at h1
        simp only [List.mem_singleton] at h1
        subst h1
        rfl
  · simp only [List.mem_singleton] at h1
    subst h1
    rfl

/-- Witness for `testChip_unsupported_no_rollback` on a record declaring
18 pins. -/
theorem testChip_unsupported_no_rollback_witness :
    (testChip true (fun _ => false)
        ⟨[1, 2, 3], 5, some ("18\nXX\n&".toList), ['A']⟩ initSim).out = TCOut.unsupported ∧
    (testChip true (fun _ => false)
        ⟨[1, 2, 3], 5, some ("18\nXX\n&".toList), ['A']⟩ initSim).sim = initSim ∧
    (testChip true (fun _ => false)
        ⟨[1, 2, 3], 5, some ("18\nXX\n&".toList), ['A']⟩ initSim).fails = [] ∧
    (testChip true (fun _ => false)
        ⟨[1, 2, 3], 5, some ("18\nXX\n&".toList), ['A']⟩ initSim).glob.numberOfPins =
      pinsOf (peekC ("18\nXX\n&".toList)) (peekC ("18\nXX\n&".toList).tail) ∧
    (testChip true (fun _ => false)
        ⟨[1, 2, 3], 5, some ("18\nXX\n&".toList), ['A']⟩ initSim).glob.pinsMap =
      (⟨[1, 2, 3], 5, some ("18\nXX\n&".toList), ['A']⟩ : Glob).pinsMap ∧
    (∀ e ∈ (testChip true (fun _ => false)
        ⟨[1, 2, 3], 5, some ("18\nXX\n&".toList), ['A']⟩ initSim).tr, isMsg e = true) :=
  testChip_unsupported_no_rollback true (fun _ => false)
    ⟨[1, 2, 3], 5, some ("18\nXX\n&".toList), ['A']⟩ initSim ("18\nXX\n&".toList)
    rfl (by decide)

/-! ### Malformed vectors abort the record with all pins restored -/

theorem readVec_bad_invalid (n : Nat) :
    ∀ first acc p c, readVec n first acc p = VecRes.bad c → validDirective c = false := by
  induction n with
  | zero => intro first acc p c h; simp [readVec] at h
  | succ m ih =>
      intro first acc p c h
      simp only [readVec] at h
      split at h
      · cases h
      · split at h
        · exact ih false _ _ _ h
        · rename_i hvalid
          simp only [VecRes.bad.injEq] at h
          subst h
          simpa using hvalid

/-- C4: hitting a character outside the directive alphabet while reading a
vector aborts the rest of the record with the bad-character error, after
restoring every pin to floating input; a vector not followed by
whitespace likewise aborts with the missing-separator error, pins
restored. -/
theorem runVectors_malformed_aborts (pins : List Nat) (n : Nat) (name : List Char)
    (verbose : Bool) (env : Nat → Bool) (fuel : Nat) (p : List Char) (tn : Nat)
    (s : Sim) :
    (∀ c, readVec n true [] (skipSpaces p) = VecRes.bad c →
      validDirective c = false ∧
      (runVectors pins n name verbose env (fuel + 1) p tn s).out = TCOut.badChar c ∧
      allInput pins (runVectors pins n name verbose env (fuel + 1) p tn s).sim) ∧
    (∀ line rest, readVec n true [] (skipSpaces p) = VecRes.ok line rest →
      isspaceC (peekC rest) = false →
      (runVectors pins n name verbose env (fuel + 1) p tn s).out = TCOut.noSpace ∧
      allInput pins (runVectors pins n name verbose env (fuel + 1) p tn s).sim) := by
  constructor
  · intro c hc
    refine ⟨readVec_bad_invalid n true [] (skipSpaces p) c hc, ?_, ?_⟩
    · simp [runVectors, hc]
    · simp only [runVectors, hc]
      exact allInput_setAllPinsToInput pins _
  · intro line rest hok hsp
    constructor
    · simp [runVectors, hok, hsp]
    · simp only [runVectors, hok, hsp, Bool.false_eq_true, if_false]
      exact allInput_setAllPinsToInput pins _

/-- Witness for `runVectors_malformed_aborts`: a vector containing `Z` at
position 3 aborts with the bad-character error and all pins floating. -/
theorem runVectors_malformed_aborts_witness :
    validDirective 'Z' = false ∧
    (runVectors chipPins4 4 ['X'] true (fun _ => false) (4 + 1)
      ("00Z1\n&".toList) 0 initSim).out = TCOut.badChar 'Z' ∧
    allInput chipPins4 (runVectors chipPins4 4 ['X'] true (fun _ => false) (4 + 1)
      ("00Z1\n&".toList) 0 initSim).sim :=
  (runVectors_malformed_aborts chipPins4 4 ['X'] true (fun _ => false) 4
    ("00Z1\n&".toList) 0 initSim).1 'Z' (by decide)

/-! ### The verbose flag changes only the messages -/

theorem chanEvs_cons_read (ch : Nat) (v : Bool) (l : List Ev) :
    chanEvs (Ev.readPin ch v :: l) = Ev.readPin ch v :: chanEvs l := by
  simp [chanEvs, isMsg]

theorem chanEvs_append (l1 l2 : List Ev) :
    chanEvs (l1 ++ l2) = chanEvs l1 ++ chanEvs l2 := by
  simp [chanEvs]

@[simp] theorem chanEvs_nil : chanEvs [] = [] := rfl

@[simp] theorem chanEvs_msg_single (m : String) : chanEvs [Ev.msg m] = [] := rfl

@[simp] theorem chanEvs_if_msg (f : Nat) (m : String) :
    chanEvs (if f = 0 then [Ev.msg m] else []) = [] := by
  by_cases hf : f = 0 <;> simp [hf]

@[simp] theorem chanEvs_cons_msg (m : String) (l : List Ev) :
    chanEvs (Ev.msg m :: l) = chanEvs l := by
  simp [chanEvs, isMsg]

@[simp] theorem chanEvs_fail_msgs (b : Bool) (f : Nat) (m1 m2 : String) :
    chanEvs (if b = true then
      (if f = 0 then [Ev.msg m1] else []) ++ [Ev.msg m2] else []) = [] := by
  cases b with
  | false => simp
  | true => by_cases hf : f = 0 <;> simp [hf, chanEvs, isMsg]

/-- The mismatch count of the sample phase, as a pure function of the
line, the read-counter start `k` and the running count `f`. -/
def readFails (env : Nat → Bool) : List (Char × Nat) → Nat → Nat → Nat
  | [], _, f => f
  | (c, _) :: rest, k, f =>
    if c = 'H' then
      if env k = true then readFails env rest (k + 1) f
      else readFails env rest (k + 1) (f + 1)
    else if c = 'L' then
      if env k = false then readFails env rest (k + 1) f
      else readFails env rest (k + 1) (f + 1)
    else readFails env rest k f

/-- The channel-level events of the sample phase, as a pure function of
the line and the read-counter start. -/
def readTraceP (env : Nat → Bool) : List (Char × Nat) → Nat → List Ev
  | [], _ => []
  | (c, ch) :: rest, k =>
    if c = 'H' then Ev.readPin ch (env k) :: readTraceP env rest (k + 1)
    else if c = 'L' then Ev.readPin ch (env k) :: readTraceP env rest (k + 1)
    else readTraceP env rest k

/-- How many pins the sample phase reads (`H` and `L` directives). -/
def numReads : List (Char × Nat) → Nat
  | [] => 0
  | (c, _) :: rest => (if c = 'H' ∨ c = 'L' then 1 else 0) + numReads rest

theorem readPhase_characterized (verbose : Bool) (env : Nat → Bool) :
    ∀ line i f s,
      (readPhase verbose env line i f s).1 = readFails env line s.nreads f ∧
      (readPhase verbose env line i f s).2.1 =
        { s with nreads := s.nreads + numReads line } ∧
      chanEvs (readPhase verbose env line i f s).2.2 = readTraceP env line s.nreads := by
  intro line
  induction line with
  | nil =>
      intro i f s
      refine ⟨rfl, ?_, rfl⟩
      simp [readPhase, numReads]
  | cons pr rest ih =>
      intro i f s
      obtain ⟨c, ch⟩ := pr
      by_cases hH : c = 'H'
      · cases hv : env s.nreads with
        | true =>
            obtain ⟨h1, h2, h3⟩ := ih (i + 1) f { s with nreads := s.nreads + 1 }
            simp only at h1 h2 h3
            refine ⟨?_, ?_, ?_⟩ <;>
              simp [readPhase, readFails, readTraceP, numReads, chanEvs_cons_read,
                chanEvs_append, hH, hv, h1, h2, h3, Sim.mk.injEq] <;> try omega
        | false =>
            obtain ⟨h1, h2, h3⟩ := ih (i + 1) (f + 1) { s with nreads := s.nreads + 1 }
            simp only at h1 h2 h3
            refine ⟨?_, ?_, ?_⟩ <;>
              simp [readPhase, readFails, readTraceP, numReads, chanEvs_cons_read,
                chanEvs_append, hH, hv, h1, h2, h3, Sim.mk.injEq] <;> try omega
      · by_cases hL : c = 'L'
        · cases hv : env s.nreads with
          | false =>
              obtain ⟨h1, h2, h3⟩ := ih (i + 1) f { s with nreads := s.nreads + 1 }
              simp only at h1 h2 h3
              refine ⟨?_, ?_, ?_⟩ <;>
                simp [readPhase, readFails, readTraceP, numReads, chanEvs_cons_read,
                  chanEvs_append, hH, hL, hv, h1, h2, h3, Sim.mk.injEq] <;> try omega
          | true =>
              obtain ⟨h1, h2, h3⟩ := ih (i + 1) (f + 1) { s with nreads := s.nreads + 1 }
              simp only at h1 h2 h3
              refine ⟨?_, ?_, ?_⟩ <;>
                simp [readPhase, readFails, readTraceP, numReads, chanEvs_cons_read,
                  chanEvs_append, hH, hL, hv, h1, h2, h3, Sim.mk.injEq] <;> try omega
        · obtain ⟨h1, h2, h3⟩ := ih (i + 1) f s
          refine ⟨?_, ?_, ?_⟩ <;>
            simp [readPhase, readFails, readTraceP, numReads, hH, hL, h1, h2, h3,
              Sim.mk.injEq]

@[simp] theorem chanEvs_ite_msgs (P : Prop) [inst : Decidable P] (a b : String) :
    chanEvs (if P then [Ev.msg a] else [Ev.msg b]) = [] := by
  split <;> simp

theorem readPhase_fst_indep (v1 v2 : Bool) (env : Nat → Bool)
    (line : List (Char × Nat)) (i f : Nat) (s : Sim) :
    (readPhase v1 env line i f s).1 = (readPhase v2 env line i f s).1 := by
  rw [(readPhase_characterized v1 env line i f s).1,
    (readPhase_characterized v2 env line i f s).1]

theorem readPhase_sim_indep (v1 v2 : Bool) (env : Nat → Bool)
    (line : List (Char × Nat)) (i f : Nat) (s : Sim) :
    (readPhase v1 env line i f s).2.1 = (readPhase v2 env line i f s).2.1 := by
  rw [(readPhase_characterized v1 env line i f s).2.1,
    (readPhase_characterized v2 env line i f s).2.1]

theorem readPhase_chan_indep (v1 v2 : Bool) (env : Nat → Bool)
    (line : List (Char × Nat)) (i f : Nat) (s : Sim) :
    chanEvs (readPhase v1 env line i f s).2.2 = chanEvs (readPhase v2 env line i f s).2.2 := by
  rw [(readPhase_characterized v1 env line i f s).2.2,
    (readPhase_characterized v2 env line i f s).2.2]

/-- C9: executing a single vector returns the same mismatch count, the
same final pin state, and the same sequence of channel-level events
(writes, mode changes, reads, waits) whether the verbose flag is true or
false; only the serial messages differ. -/
theorem singleTest_verbose_indep (line : List (Char × Nat)) (tn : Nat)
    (env : Nat → Bool) (s : Sim) :
    (singleTest line tn true env s).1 = (singleTest line tn false env s).1 ∧
    (singleTest line tn true env s).2.1 = (singleTest line tn false env s).2.1 ∧
    chanEvs (singleTest line tn true env s).2.2 =
      chanEvs (singleTest line tn false env s).2.2 := by
  refine ⟨?_, ?_, ?_⟩
  · simp only [singleTest]
    exact readPhase_fst_indep true false env line 0 0 _
  · simp only [singleTest]
    exact readPhase_sim_indep true false env line 0 0 _
  · simp only [singleTest]
    simp only [chanEvs_append]
    rw [readPhase_chan_indep true false env line 0 0 _]
    simp

/-! ### The pulse phase -/

/-- Events that only touch a pin's level or mode. -/
def writeOrMode (e : Ev) : Bool :=
  match e with
  | Ev.write _ _ => true
  | Ev.setMode _ _ => true
  | _ => false

theorem writeOrMode_not_wait (e : Ev) (h : writeOrMode e = true) :
    isWait e = false ∧ isMsg e = false := by
  cases e <;> simp_all [writeOrMode, isWait, isMsg]

/-- The events of the ground phase, as a pure function of the line. -/
def groundTraceP : List (Char × Nat) → Nat → List Ev
  | [], _ => []
  | (c, ch) :: rest, i =>
    if c = 'G' then
      Ev.write ch false :: Ev.setMode ch PMode.output ::
        ((if i + 1 = DUT_GROUND_A then
            [Ev.write GROUND_PINA false, Ev.setMode GROUND_PINA PMode.output]
          else if i + 1 = DUT_GROUND_B then
            [Ev.write GROUND_PINB false, Ev.setMode GROUND_PINB PMode.output]
          else []) ++ groundTraceP rest (i + 1))
    else groundTraceP rest (i + 1)

/-- The events of the power phase, as a pure function of the line. -/
def powerTraceP : List (Char × Nat) → List Ev
  | [] => []
  | (c, ch) :: rest =>
    if c = 'V' then Ev.write ch true :: Ev.setMode ch PMode.output :: powerTraceP rest
    else powerTraceP rest

/-- The events of the input phase, as a pure function of the line. -/
def inputTraceP : List (Char × Nat) → List Ev
  | [] => []
  | (c, ch) :: rest =>
    if c = '0' ∨ c = 'C' then
      Ev.write ch false :: Ev.setMode ch PMode.output :: inputTraceP rest
    else if c = '1' ∨ c = 'c' then
      Ev.write ch true :: Ev.setMode ch PMode.output :: inputTraceP rest
    else inputTraceP rest

/-- The events of the output-preparation phase, as a pure function of the
line. -/
def outputTraceP : List (Char × Nat) → List Ev
  | [] => []
  | (c, ch) :: rest =>
    if c = 'H' then
      Ev.write ch false :: Ev.setMode ch PMode.output :: Ev.setMode ch PMode.input ::
        outputTraceP rest
    else if c = 'L' then
      Ev.setMode ch PMode.inputPullup :: outputTraceP rest
    else outputTraceP rest

theorem groundPhase_trace :
    ∀ (line : List (Char × Nat)) (i : Nat) (s : Sim),
      (groundPhase line i s).2 = groundTraceP line i := by
  intro line
  induction line with
  | nil => intro i s; rfl
  | cons pr rest ih =>
      intro i s
      obtain ⟨c, ch⟩ := pr
      by_cases hg : c = 'G'
      · by_cases hA : i + 1 = DUT_GROUND_A
        · simp [groundPhase, groundTraceP, hg, hA, digW, setMode, ih,
            DUT_GROUND_A, DUT_GROUND_B]
        · by_cases hB : i + 1 = DUT_GROUND_B
          · simp [groundPhase, groundTraceP, hg, hA, hB, digW, setMode, ih,
              DUT_GROUND_A, DUT_GROUND_B]
          · simp [groundPhase, groundTraceP, hg, hA, hB, digW, setMode, ih]
      · simp [groundPhase, groundTraceP, hg, ih]

theorem powerPhase_trace :
    ∀ (line : List (Char × Nat)) (s : Sim),
      (powerPhase line s).2 = powerTraceP line := by
  intro line
  induction line with
  | nil => intro s; rfl
  | cons pr rest ih =>
      intro s
      obtain ⟨c, ch⟩ := pr
      by_cases hv : c = 'V'
      · simp [powerPhase, powerTraceP, hv, digW, setMode, ih]
      · simp [powerPhase, powerTraceP, hv, ih]

theorem inputPhase_trace :
    ∀ (line : List (Char × Nat)) (s : Sim),
      (inputPhase line s).2 = inputTraceP line := by
  intro line
  induction line with
  | nil => intro s; rfl
  | cons pr rest ih =>
      intro s
      obtain ⟨c, ch⟩ := pr
      by_cases h0 : c = '0' ∨ c = 'C'
      · simp [inputPhase, inputTraceP, h0, digW, setMode, ih]
      · by_cases h1 : c = '1' ∨ c = 'c'
        · simp [inputPhase, inputTraceP, h0, h1, digW, setMode, ih]
        · simp [inputPhase, inputTraceP, h0, h1, ih]

theorem outputPhase_trace :
    ∀ (line : List (Char × Nat)) (s : Sim),
      (outputPhase line s).2 = outputTraceP line := by
  intro line
  induction line with
  | nil => intro s; rfl
  | cons pr rest ih =>
      intro s
      obtain ⟨c, ch⟩ := pr
      by_cases hH : c = 'H'
      · simp [outputPhase, outputTraceP, hH, digW, setMode, ih]
      · by_cases hL : c = 'L'
        · simp [outputPhase, outputTraceP, hH, hL, setMode, ih]
        · simp [outputPhase, outputTraceP, hH, hL, ih]

theorem groundTraceP_events :
    ∀ (line : List (Char × Nat)) (i : Nat) (e : Ev),
      e ∈ groundTraceP line i → writeOrMode e = true := by
  intro line
  induction line with
  | nil => intro i e he; simp [groundTraceP] at he
  | cons pr rest ih =>
      intro i e he
      obtain ⟨c, ch⟩ := pr
      simp only [groundTraceP] at he
      by_cases hg : c = 'G'
      · rw [if_pos hg] at he
        simp only [List.mem_cons, List.mem_append] at he
        rcases he with rfl | rfl | he | he
        · rfl
        · rfl
        · split at he
          · simp only [List.mem_cons, List.not_mem_nil, or_false] at he
            rcases he with rfl | rfl <;> rfl
          · split at he
            · simp only [List.mem_cons, List.not_mem_nil, or_false] at he
              rcases he with rfl | rfl <;> rfl
            · simp at he
        · exact ih (i + 1) e he
      · rw [if_neg hg] at he
        exact ih (i + 1) e he

theorem powerTraceP_events :
    ∀ (line : List (Char × Nat)) (e : Ev),
      e ∈ powerTraceP line → writeOrMode e = true := by
  intro line
  induction line with
  | nil => intro e he; simp [powerTraceP] at he
  | cons pr rest ih =>
      intro e he
      obtain ⟨c, ch⟩ := pr
      simp only [powerTraceP] at he
      by_cases hv : c = 'V'
      · rw [if_pos hv] at he
        simp only [List.mem_cons] at he
        rcases he with rfl | rfl | he
        · rfl
        · rfl
        · exact ih e he
      · rw [if_neg hv] at he
        exact ih e he

theorem inputTraceP_events :
    ∀ (line : List (Char × Nat)) (e : Ev),
      e ∈ inputTraceP line → writeOrMode e = true := by
  intro line
  induction line with
  | nil => intro e he; simp [inputTraceP] at he
  | cons pr rest ih =>
      intro e he
      obtain ⟨c, ch⟩ := pr
      simp only [inputTraceP] at he
      by_cases h0 : c = '0' ∨ c = 'C'
      · rw [if_pos h0] at he
        simp only [List.mem_cons] at he
        rcases he with rfl | rfl | he
        · rfl
        · rfl
        · exact ih e he
      · rw [if_neg h0] at he
        by_cases h1 : c = '1' ∨ c = 'c'
        · rw [if_pos h1] at he
          simp only [List.mem_cons] at he
          rcases he with rfl | rfl | he
          · rfl
          · rfl
          · exact ih e he
        · rw [if_neg h1] at he
          exact ih e he

theorem outputTraceP_events :
    ∀ (line : List (Char × Nat)) (e : Ev),
      e ∈ outputTraceP line → writeOrMode e = true := by
  intro line
  induction line with
  | nil => intro e he; simp [outputTraceP] at he
  | cons pr rest ih =>
      intro e he
      obtain ⟨c, ch⟩ := pr
      simp only [outputTraceP] at he
      by_cases hH : c = 'H'
      · rw [if_pos hH] at he
        simp only [List.mem_cons] at he
        rcases he with rfl | rfl | rfl | he
        · rfl
        · rfl
        · rfl
        · exact ih e he
      · rw [if_neg hH] at he
        by_cases hL : c = 'L'
        · rw [if_pos hL] at he
          simp only [List.mem_cons] at he
          rcases he with rfl | he
          · rfl
          · exact ih e he
        · rw [if_neg hL] at he
          exact ih e he

theorem pulseSet_trace :
    ∀ (line : List (Char × Nat)) (s : Sim), (pulseSet line s).2 = pulseSetTrace line := by
  intro line
  induction line with
  | nil => intro s; rfl
  | cons pr rest ih =>
      intro s
      obtain ⟨c, ch⟩ := pr
      by_cases hC : c = 'C'
      · simp [pulseSet, pulseSetTrace, hC, digW, ih]
      · by_cases hc : c = 'c'
        · simp [pulseSet, pulseSetTrace, hC, hc, digW, ih]
        · simp [pulseSet, pulseSetTrace, hC, hc, ih]

theorem pulseRestore_trace :
    ∀ (line : List (Char × Nat)) (s : Sim),
      (pulseRestore line s).2 = pulseRestoreTrace line := by
  intro line
  induction line with
  | nil => intro s; rfl
  | cons pr rest ih =>
      intro s
      obtain ⟨c, ch⟩ := pr
      by_cases hC : c = 'C'
      · simp [pulseRestore, pulseRestoreTrace, hC, digW, ih]
      · by_cases hc : c = 'c'
        · simp [pulseRestore, pulseRestoreTrace, hC, hc, digW, ih]
        · simp [pulseRestore, pulseRestoreTrace, hC, hc, ih]

theorem pulseSetTrace_events :
    ∀ (line : List (Char × Nat)) (e : Ev),
      e ∈ pulseSetTrace line → writeOrMode e = true := by
  intro line
  induction line with
  | nil => intro e he; simp [pulseSetTrace] at he
  | cons pr rest ih =>
      intro e he
      obtain ⟨c, ch⟩ := pr
      simp only [pulseSetTrace] at he
      by_cases hC : c = 'C'
      · rw [if_pos hC] at he
        simp only [List.mem_cons] at he
        rcases he with rfl | he
        · rfl
        · exact ih e he
      · rw [if_neg hC] at he
        by_cases hc : c = 'c'
        · rw [if_pos hc] at he
          simp only [List.mem_cons] at he
          rcases he with rfl | he
          · rfl
          · exact ih e he
        · rw [if_neg hc] at he
          exact ih e he

theorem pulseRestoreTrace_events :
    ∀ (line : List (Char × Nat)) (e : Ev),
      e ∈ pulseRestoreTrace line → writeOrMode e = true := by
  intro line
  induction line with
  | nil => intro e he; simp [pulseRestoreTrace] at he
  | cons pr rest ih =>
      intro e he
      obtain ⟨c, ch⟩ := pr
      simp only [pulseRestoreTrace] at he
      by_cases hC : c = 'C'
      · rw [if_pos hC] at he
        simp only [List.mem_cons] at he
        rcases he with rfl | he
        · rfl
        · exact ih e he
      · rw [if_neg hC] at he
        by_cases hc : c = 'c'
        · rw [if_pos hc] at he
          simp only [List.mem_cons] at he
          rcases he with rfl | he
          · rfl
          · exact ih e he
        · rw [if_neg hc] at he
          exact ih e he

theorem readTraceP_events (env : Nat → Bool) :
    ∀ (line : List (Char × Nat)) (k : Nat) (e : Ev),
      e ∈ readTraceP env line k → ∃ p v, e = Ev.readPin p v := by
  intro line
  induction line with
  | nil => intro k e he; simp [readTraceP] at he
  | cons pr rest ih =>
      intro k e he
      obtain ⟨c, ch⟩ := pr
      simp only [readTraceP] at he
      by_cases hH : c = 'H'
      · rw [if_pos hH] at he
        simp only [List.mem_cons] at he
        rcases he with rfl | he
        · exact ⟨ch, env k, rfl⟩
        · exact ih (k + 1) e he
      · rw [if_neg hH] at he
        by_cases hL : c = 'L'
        · rw [if_pos hL] at he
          simp only [List.mem_cons] at he
          rcases he with rfl | he
          · exact ⟨ch, env k, rfl⟩
          · exact ih (k + 1) e he
        · rw [if_neg hL] at he
          exact ih k e he

theorem countWaits_append (l1 l2 : List Ev) :
    countWaits (l1 ++ l2) = countWaits l1 + countWaits l2 := by
  simp [countWaits]

theorem countWaits_cons_wait (n : Nat) (l : List Ev) :
    countWaits (Ev.wait n :: l) = countWaits l + 1 := by
  simp [countWaits, isWait]

theorem countWaits_zero (l : List Ev) (h : ∀ e ∈ l, isWait e = false) :
    countWaits l = 0 := by
  simp only [countWaits, List.length_eq_zero]
  rw [List.filter_eq_nil_iff]
  intro e he
  simp [h e he]

theorem countClocks_ne_zero :
    ∀ line : List (Char × Nat),
      countClocks line ≠ 0 ↔ ∃ pr ∈ line, pr.1 = 'C' ∨ pr.1 = 'c' := by
  intro line
  induction line with
  | nil => simp [countClocks]
  | cons pr rest ih =>
      obtain ⟨c, ch⟩ := pr
      by_cases hc : c = 'C' ∨ c = 'c'
      · simp only [countClocks, hc, if_true]
        constructor
        · intro _
          exact ⟨(c, ch), List.mem_cons_self _ _, hc⟩
        · intro _
          omega
      · simp only [countClocks, hc, if_false, Nat.zero_add]
        rw [ih]
        constructor
        · rintro ⟨pr, hpr, hd⟩
          exact ⟨pr, List.mem_cons_of_mem _ hpr, hd⟩
        · rintro ⟨pr, hpr, hd⟩
          rcases List.mem_cons.1 hpr with rfl | hpr
          · exact absurd hd hc
          · exact ⟨pr, hpr, hd⟩

theorem pulseRestore_level_not_mem :
    ∀ (line : List (Char × Nat)) (s : Sim) (ch : Nat),
      ch ∉ line.map Prod.snd →
      ((pulseRestore line s).1).level ch = s.level ch := by
  intro line
  induction line with
  | nil => intro s ch _; rfl
  | cons pr rest ih =>
      intro s ch hch
      obtain ⟨c0, ch0⟩ := pr
      simp only [List.map_cons, List.mem_cons] at hch
      push_neg at hch
      obtain ⟨hne, hrest⟩ := hch
      simp only [pulseRestore]
      by_cases hC : c0 = 'C'
      · rw [if_pos hC]
        simp only [digW]
        rw [ih _ ch hrest]
        simp [hne]
      · rw [if_neg hC]
        by_cases hc : c0 = 'c'
        · rw [if_pos hc]
          simp only [digW]
          rw [ih _ ch hrest]
          simp [hne]
        · rw [if_neg hc]
          exact ih s ch hrest

theorem pulseRestore_levels :
    ∀ (line : List (Char × Nat)) (s : Sim), (line.map Prod.snd).Nodup →
      ∀ pr ∈ line,
        (pr.1 = 'C' → ((pulseRestore line s).1).level pr.2 = false) ∧
        (pr.1 = 'c' → ((pulseRestore line s).1).level pr.2 = true) := by
  intro line
  induction line with
  | nil => intro s _ pr hpr; simp at hpr
  | cons hd rest ih =>
      intro s hnd pr hpr
      obtain ⟨c0, ch0⟩ := hd
      simp only [List.map_cons, List.nodup_cons] at hnd
      obtain ⟨hch0, hndr⟩ := hnd
      rcases List.mem_cons.1 hpr with rfl | hpr
      · constructor
        · intro hdir
          simp only at hdir
          subst hdir
          simp only [pulseRestore, if_true]
          rw [pulseRestore_level_not_mem rest _ ch0 hch0]
          simp [digW]
        · intro hdir
          simp only at hdir
          subst hdir
          simp only [pulseRestore, if_true]
          rw [if_neg (by decide)]
          rw [pulseRestore_level_not_mem rest _ ch0 hch0]
          simp [digW]
      · constructor
        · intro hdir
          simp only [pulseRestore]
          by_cases hC : c0 = 'C'
          · rw [if_pos hC]
            exact ((ih _ hndr pr hpr).1) hdir
          · rw [if_neg hC]
            by_cases hc : c0 = 'c'
            · rw [if_pos hc]
              exact ((ih _ hndr pr hpr).1) hdir
            · rw [if_neg hc]
              exact ((ih _ hndr pr hpr).1) hdir
        · intro hdir
          simp only [pulseRestore]
          by_cases hC : c0 = 'C'
          · rw [if_pos hC]
            exact ((ih _ hndr pr hpr).2) hdir
          · rw [if_neg hC]
            by_cases hc : c0 = 'c'
            · rw [if_pos hc]
              exact ((ih _ hndr pr hpr).2) hdir
            · rw [if_neg hc]
              exact ((ih _ hndr pr hpr).2) hdir

theorem readPhase_level (verbose : Bool) (env : Nat → Bool)
    (line : List (Char × Nat)) (i f : Nat) (s : Sim) :
    ((readPhase verbose env line i f s).2.1).level = s.level := by
  rw [(readPhase_characterized verbose env line i f s).2.1]

theorem readPhase_no_wait (verbose : Bool) (env : Nat → Bool)
    (line : List (Char × Nat)) (i f : Nat) (s : Sim) :
    ∀ e ∈ (readPhase verbose env line i f s).2.2, isWait e = false := by
  intro e he
  by_cases hm : isMsg e = true
  · cases e <;> simp_all [isMsg, isWait]
  · have hmem : e ∈ chanEvs (readPhase verbose env line i f s).2.2 := by
      simp [chanEvs, List.mem_filter, he, hm]
    rw [(readPhase_characterized verbose env line i f s).2.2] at hmem
    obtain ⟨p, v, rfl⟩ := readTraceP_events env line s.nreads e hmem
    rfl

theorem countWaits_nil : countWaits [] = 0 := rfl

theorem countWaits_header (b : Bool) (m : String) :
    countWaits (if b = true then [Ev.msg m] else []) = 0 := by
  cases b <;> rfl

theorem countWaits_summary_msgs (b : Bool) (n : Nat) (m1 m2 : String) :
    countWaits (if b = true then
      (if n ≠ 0 then [Ev.msg m1] else [Ev.msg m2]) else []) = 0 := by
  cases b with
  | false => rfl
  | true => by_cases hn : n ≠ 0 <;> simp [hn, countWaits, isWait]

theorem pre_decomp (t0 t1 r2 r3 r4 r5 r6 r7 r8 r9 : List Ev) :
    ∃ rest, t0 ++ t1 ++ r2 ++ r3 ++ r4 ++ r5 ++ r6 ++ r7 ++ r8 ++ r9 =
      t0 ++ t1 ++ rest :=
  ⟨r2 ++ r3 ++ r4 ++ r5 ++ r6 ++ r7 ++ r8 ++ r9, by simp [List.append_assoc]⟩

theorem trace_decomp (t0 t1 t2 t3 t4 ps pr t8 t9 : List Ev) (w w2 : Nat) :
    ∃ x z, t0 ++ t1 ++ t2 ++ t3 ++ t4 ++ ps ++ (Ev.wait w :: pr) ++ [Ev.wait w2] ++ t8 ++ t9 =
      x ++ ps ++ Ev.wait w :: (pr ++ Ev.wait w2 :: z) :=
  ⟨t0 ++ t1 ++ t2 ++ t3 ++ t4, t8 ++ t9, by simp [List.append_assoc]⟩

theorem countWaits_two (t0 t1 t2 t3 t4 ps pr t8 t9 : List Ev) (w w2 : Nat)
    (h0 : countWaits t0 = 0) (h1 : countWaits t1 = 0) (h2 : countWaits t2 = 0)
    (h3 : countWaits t3 = 0) (h4 : countWaits t4 = 0) (hps : countWaits ps = 0)
    (hpr : countWaits pr = 0) (h8 : countWaits t8 = 0) (h9 : countWaits t9 = 0) :
    countWaits (t0 ++ t1 ++ t2 ++ t3 ++ t4 ++ ps ++ (Ev.wait w :: pr) ++
      [Ev.wait w2] ++ t8 ++ t9) = 2 := by
  simp only [countWaits_append, countWaits_cons_wait, countWaits_nil,
    h0, h1, h2, h3, h4, hps, hpr, h8, h9]

theorem countWaits_one (t0 t1 t2 t3 t4 ps t8 t9 : List Ev) (w2 : Nat)
    (h0 : countWaits t0 = 0) (h1 : countWaits t1 = 0) (h2 : countWaits t2 = 0)
    (h3 : countWaits t3 = 0) (h4 : countWaits t4 = 0) (hps : countWaits ps = 0)
    (h8 : countWaits t8 = 0) (h9 : countWaits t9 = 0) :
    countWaits (t0 ++ t1 ++ t2 ++ t3 ++ t4 ++ ps ++ [] ++
      [Ev.wait w2] ++ t8 ++ t9) = 1 := by
  simp only [countWaits_append, countWaits_cons_wait, countWaits_nil,
    h0, h1, h2, h3, h4, hps, h8, h9]

theorem countWaits_of_writeOrMode (l : List Ev) (h : ∀ e ∈ l, writeOrMode e = true) :
    countWaits l = 0 :=
  countWaits_zero l (fun e he => (writeOrMode_not_wait e (h e he)).1)

/-- C6: if a vector contains at least one `C`/`c` directive, `singleTest`
drives each `C` pin high and each `c` pin low, holds that state for the
clock pulse width, restores every pulsed pin to its rest level (`C` low,
`c` high; those are its final levels), and the trace contains exactly the
pulse wait and the settle wait; with no `C`/`c` the pulse wait is omitted
and only the settle wait occurs. -/
theorem singleTest_pulse_phase (line : List (Char × Nat)) (tn : Nat) (verbose : Bool)
    (env : Nat → Bool) (s : Sim) :
    ((∃ pr ∈ line, pr.1 = 'C' ∨ pr.1 = 'c') →
      (∃ x z, (singleTest line tn verbose env s).2.2 =
        x ++ pulseSetTrace line ++
          Ev.wait CLOCK_PULSE_WIDTH :: (pulseRestoreTrace line ++
            Ev.wait DATA_SETTLE_TIME :: z)) ∧
      countWaits (singleTest line tn verbose env s).2.2 = 2 ∧
      ((line.map Prod.snd).Nodup →
        ∀ pr ∈ line,
          (pr.1 = 'C' → ((singleTest line tn verbose env s).2.1).level pr.2 = false) ∧
          (pr.1 = 'c' → ((singleTest line tn verbose env s).2.1).level pr.2 = true))) ∧
    ((∀ pr ∈ line, pr.1 ≠ 'C' ∧ pr.1 ≠ 'c') →
      countWaits (singleTest line tn verbose env s).2.2 = 1) := by
  constructor
  · intro hcl
    have hcc : countClocks line ≠ 0 := (countClocks_ne_zero line).2 hcl
    refine ⟨?_, ?_, ?_⟩
    · simp only [singleTest]
      rw [pulseSet_trace, pulseRestore_trace, if_pos hcc]
      exact trace_decomp _ _ _ _ _ _ _ _ _ _ _
    · simp only [singleTest]
      rw [pulseSet_trace, pulseRestore_trace, if_pos hcc,
        groundPhase_trace, powerPhase_trace, inputPhase_trace, outputPhase_trace]
      exact countWaits_two _ _ _ _ _ _ _ _ _ _ _
        (countWaits_header verbose _)
        (countWaits_of_writeOrMode _ (groundTraceP_events line 0))
        (countWaits_of_writeOrMode _ (powerTraceP_events line))
        (countWaits_of_writeOrMode _ (inputTraceP_events line))
        (countWaits_of_writeOrMode _ (outputTraceP_events line))
        (countWaits_of_writeOrMode _ (pulseSetTrace_events line))
        (countWaits_of_writeOrMode _ (pulseRestoreTrace_events line))
        (countWaits_zero _ (readPhase_no_wait verbose env line 0 0 _))
        (countWaits_summary_msgs verbose _ _ _)
    · intro hnd pr hpr
      have hlev : ((singleTest line tn verbose env s).2.1).level =
          ((pulseRestore line (pulseSet line (outputPhase line (inputPhase line
            (powerPhase line (groundPhase line 0 s).1).1).1).1).1).1).level := by
        simp only [singleTest]
        rw [readPhase_level, if_pos hcc]
      constructor
      · intro hdir
        rw [hlev]
        exact (pulseRestore_levels line _ hnd pr hpr).1 hdir
      · intro hdir
        rw [hlev]
        exact (pulseRestore_levels line _ hnd pr hpr).2 hdir
  · intro hncl
    have hcc : ¬countClocks line ≠ 0 := by
      intro hne
      obtain ⟨pr, hpr, hd⟩ := (countClocks_ne_zero line).1 hne
      exact absurd hd (by
        have := hncl pr hpr
        tauto)
    simp only [singleTest]
    rw [pulseSet_trace, if_neg hcc,
      groundPhase_trace, powerPhase_trace, inputPhase_trace, outputPhase_trace]
    exact countWaits_one _ _ _ _ _ _ _ _ _
      (countWaits_header verbose _)
      (countWaits_of_writeOrMode _ (groundTraceP_events line 0))
      (countWaits_of_writeOrMode _ (powerTraceP_events line))
      (countWaits_of_writeOrMode _ (inputTraceP_events line))
      (countWaits_of_writeOrMode _ (outputTraceP_events line))
      (countWaits_of_writeOrMode _ (pulseSetTrace_events line))
      (countWaits_zero _ (readPhase_no_wait verbose env line 0 0 _))
      (countWaits_summary_msgs verbose _ _ _)

/-- Witness for `singleTest_pulse_phase` on a vector with one rising and
one falling clock directive. -/
theorem singleTest_pulse_phase_witness :
    countWaits (singleTest [('C', 10), ('c', 9), ('X', 8)] 0 false
      (fun _ => false) initSim).2.2 = 2 ∧
    ((singleTest [('C', 10), ('c', 9), ('X', 8)] 0 false
      (fun _ => false) initSim).2.1).level 10 = false ∧
    ((singleTest [('C', 10), ('c', 9), ('X', 8)] 0 false
      (fun _ => false) initSim).2.1).level 9 = true := by
  have h := (singleTest_pulse_phase [('C', 10), ('c', 9), ('X', 8)] 0 false
    (fun _ => false) initSim).1 (by decide)
  exact ⟨h.2.1, (h.2.2 (by decide) ('C', 10) (by decide)).1 rfl,
    (h.2.2 (by decide) ('c', 9) (by decide)).2 rfl⟩

/-! ### The ground phase and the hard-ground override -/

theorem groundTraceP_writes :
    ∀ (line : List (Char × Nat)) (i : Nat), ∀ pr ∈ line, pr.1 = 'G' →
      Ev.write pr.2 false ∈ groundTraceP line i ∧
      Ev.setMode pr.2 PMode.output ∈ groundTraceP line i := by
  intro line
  induction line with
  | nil => intro i pr hpr; simp at hpr
  | cons hd rest ih =>
      intro i pr hpr hG
      obtain ⟨c, ch⟩ := hd
      rcases List.mem_cons.1 hpr with rfl | hpr
      · simp only at hG
        subst hG
        constructor
        · simp [groundTraceP]
        · simp [groundTraceP]
      · obtain ⟨h1, h2⟩ := ih (i + 1) pr hpr hG
        simp only [groundTraceP]
        by_cases hg : c = 'G'
        · rw [if_pos hg]
          simp only [List.mem_cons, List.mem_append]
          exact ⟨Or.inr (Or.inr (Or.inr h1)), Or.inr (Or.inr (Or.inr h2))⟩
        · rw [if_neg hg]
          exact ⟨h1, h2⟩

theorem groundTraceP_override_A :
    ∀ (line : List (Char × Nat)) (i : Nat),
      (∀ pr ∈ line, pr.2 ≠ GROUND_PINA) →
      ((Ev.write GROUND_PINA false ∈ groundTraceP line i) ↔
        ∃ j ch, line.get? j = some ('G', ch) ∧ i + j + 1 = DUT_GROUND_A) := by
  intro line
  induction line with
  | nil =>
      intro i _
      simp [groundTraceP]
  | cons hd rest ih =>
      intro i hA
      obtain ⟨c, ch⟩ := hd
      have hch : ch ≠ GROUND_PINA := hA (c, ch) (List.mem_cons_self _ _)
      have hArest : ∀ pr ∈ rest, pr.2 ≠ GROUND_PINA :=
        fun pr hpr => hA pr (List.mem_cons_of_mem _ hpr)
      by_cases hg : c = 'G'
      · simp only [groundTraceP]
        rw [if_pos hg]
        constructor
        · intro hmem
          simp only [List.mem_cons, List.mem_append] at hmem
          rcases hmem with h | h | h | h
          · exact absurd (by injection h with h1 _; exact h1.symm) hch
          · cases h
          · by_cases h7 : i + 1 = DUT_GROUND_A
            · exact ⟨0, ch, by simp [hg], by omega⟩
            · rw [if_neg h7] at h
              by_cases h8 : i + 1 = DUT_GROUND_B
              · rw [if_pos h8] at h
                simp only [List.mem_cons, List.not_mem_nil, or_false] at h
                rcases h with h | h
                · simp [GROUND_PINA, GROUND_PINB] at h
                · cases h
              · rw [if_neg h8] at h
                simp at h
          · obtain ⟨j, ch', hj, ha⟩ := (ih (i + 1) hArest).1 h
            exact ⟨j + 1, ch', by simpa using hj, by omega⟩
        · rintro ⟨j, ch', hj, ha⟩
          simp only [List.mem_cons, List.mem_append]
          cases j with
          | zero =>
              have h7 : i + 1 = DUT_GROUND_A := by omega
              rw [if_pos h7]
              simp
          | succ k =>
              simp only [List.get?_cons_succ] at hj
              have := (ih (i + 1) hArest).2 ⟨k, ch', hj, by omega⟩
              exact Or.inr (Or.inr (Or.inr this))
      · simp only [groundTraceP, if_neg hg]
        rw [ih (i + 1) hArest]
        constructor
        · rintro ⟨j, ch', hj, ha⟩
          exact ⟨j + 1, ch', by simpa using hj, by omega⟩
        · rintro ⟨j, ch', hj, ha⟩
          cases j with
          | zero =>
              simp only [List.get?_cons_zero, Option.some.injEq] at hj
              exact absurd (congrArg Prod.fst hj) hg
          | succ k =>
              simp only [List.get?_cons_succ] at hj
              exact ⟨k, ch', hj, by omega⟩

theorem groundTraceP_override_B :
    ∀ (line : List (Char × Nat)) (i : Nat),
      (∀ pr ∈ line, pr.2 ≠ GROUND_PINB) →
      ((Ev.write GROUND_PINB false ∈ groundTraceP line i) ↔
        ∃ j ch, line.get? j = some ('G', ch) ∧ i + j + 1 = DUT_GROUND_B) := by
  intro line
  induction line with
  | nil =>
      intro i _
      simp [groundTraceP]
  | cons hd rest ih =>
      intro i hB
      obtain ⟨c, ch⟩ := hd
      have hch : ch ≠ GROUND_PINB := hB (c, ch) (List.mem_cons_self _ _)
      have hBrest : ∀ pr ∈ rest, pr.2 ≠ GROUND_PINB :=
        fun pr hpr => hB pr (List.mem_cons_of_mem _ hpr)
      by_cases hg : c = 'G'
      · simp only [groundTraceP]
        rw [if_pos hg]
        constructor
        · intro hmem
          simp only [List.mem_cons, List.mem_append] at hmem
          rcases hmem with h | h | h | h
          · exact absurd (by injection h with h1 _; exact h1.symm) hch
          · cases h
          · by_cases h7 : i + 1 = DUT_GROUND_A
            · rw [if_pos h7] at h
              simp only [List.mem_cons, List.not_mem_nil, or_false] at h
              rcases h with h | h
              · simp [GROUND_PINA, GROUND_PINB] at h
              · cases h
            · rw [if_neg h7] at h
              by_cases h8 : i + 1 = DUT_GROUND_B
              · exact ⟨0, ch, by simp [hg], by omega⟩
              · rw [if_neg h8] at h
                simp at h
          · obtain ⟨j, ch', hj, ha⟩ := (ih (i + 1) hBrest).1 h
            exact ⟨j + 1, ch', by simpa using hj, by omega⟩
        · rintro ⟨j, ch', hj, ha⟩
          simp only [List.mem_cons, List.mem_append]
          cases j with
          | zero =>
              have h8 : i + 1 = DUT_GROUND_B := by omega
              have h7 : ¬(i + 1 = DUT_GROUND_A) := by
                simp only [DUT_GROUND_A, DUT_GROUND_B] at h8 ⊢
                omega
              rw [if_neg h7, if_pos h8]
              simp
          | succ k =>
              simp only [List.get?_cons_succ] at hj
              have := (ih (i + 1) hBrest).2 ⟨k, ch', hj, by omega⟩
              exact Or.inr (Or.inr (Or.inr this))
      · simp only [groundTraceP, if_neg hg]
        rw [ih (i + 1) hBrest]
        constructor
        · rintro ⟨j, ch', hj, ha⟩
          exact ⟨j + 1, ch', by simpa using hj, by omega⟩
        · rintro ⟨j, ch', hj, ha⟩
          cases j with
          | zero =>
              simp only [List.get?_cons_zero, Option.some.injEq] at hj
              exact absurd (congrArg Prod.fst hj) hg
          | succ k =>
              simp only [List.get?_cons_succ] at hj
              exact ⟨k, ch', hj, by omega⟩

/-- C7: the ground phase runs first in `singleTest`: every `G` pin is
driven low (and set to output), and the dedicated hard-ground override
channel is driven low exactly when the `G` directive sits at DuT pin 7
(override channel `GROUND_PINA`) or DuT pin 8 (override channel
`GROUND_PINB`); a `G` anywhere else drives only its own channel.  The
hypotheses say the line's own channels are distinct from the two override
channels, as is true of every pin map in the sketch. -/
theorem singleTest_ground_override (line : List (Char × Nat)) (tn : Nat)
    (verbose : Bool) (env : Nat → Bool) (s : Sim)
    (hA : ∀ pr ∈ line, pr.2 ≠ GROUND_PINA) (hB : ∀ pr ∈ line, pr.2 ≠ GROUND_PINB) :
    (∀ pr ∈ line, pr.1 = 'G' →
      Ev.write pr.2 false ∈ (groundPhase line 0 s).2 ∧
      Ev.setMode pr.2 PMode.output ∈ (groundPhase line 0 s).2) ∧
    ((Ev.write GROUND_PINA false ∈ (groundPhase line 0 s).2) ↔
      (∃ ch, line.get? 6 = some ('G', ch))) ∧
    ((Ev.write GROUND_PINB false ∈ (groundPhase line 0 s).2) ↔
      (∃ ch, line.get? 7 = some ('G', ch))) ∧
    (∃ rest, (singleTest line tn verbose env s).2.2 =
      (if verbose then [Ev.msg ("Testing case " ++ showNumber tn ++ ": " ++ lineStr line)]
       else []) ++ (groundPhase line 0 s).2 ++ rest) := by
  refine ⟨?_, ?_, ?_, ?_⟩
  · intro pr hpr hG
    rw [groundPhase_trace]
    exact groundTraceP_writes line 0 pr hpr hG
  · rw [groundPhase_trace, groundTraceP_override_A line 0 hA]
    constructor
    · rintro ⟨j, ch, hj, ha⟩
      have hj6 : j = 6 := by
        simp only [DUT_GROUND_A] at ha
        omega
      subst hj6
      exact ⟨ch, hj⟩
    · rintro ⟨ch, hj⟩
      exact ⟨6, ch, hj, by simp [DUT_GROUND_A]⟩
  · rw [groundPhase_trace, groundTraceP_override_B line 0 hB]
    constructor
    · rintro ⟨j, ch, hj, ha⟩
      have hj7 : j = 7 := by
        simp only [DUT_GROUND_B] at ha
        omega
      subst hj7
      exact ⟨ch, hj⟩
    · rintro ⟨ch, hj⟩
      exact ⟨7, ch, hj, by simp [DUT_GROUND_B]⟩
  · simp only [singleTest]
    rw [groundPhase_trace]
    exact pre_decomp _ _ _ _ _ _ _ _ _ _

/-- Witness for `singleTest_ground_override`: a 14-pin-style line with
ground at DuT pin 7 (zipped with the 14-pin map's channels). -/
theorem singleTest_ground_override_witness :
    (Ev.write GROUND_PINA false ∈
      (groundPhase (List.zip "000000G0000000".toList chipPins14) 0 initSim).2) ∧
    (Ev.write GROUND_PINB false ∉
      (groundPhase (List.zip "000000G0000000".toList chipPins14) 0 initSim).2) := by
  have h := singleTest_ground_override (List.zip "000000G0000000".toList chipPins14)
    0 false (fun _ => false) initSim (by decide) (by decide)
  refine ⟨h.2.1.2 ⟨4, by decide⟩, fun hmem => ?_⟩
  obtain ⟨ch, hch⟩ := h.2.2.1.1 hmem
  rw [show ("000000G0000000".toList.zip chipPins14).get? 7 = some ('0', 12) from rfl] at hch
  simp at hch

/-! ### Detection is exactly zero mismatches on every vector -/

theorem readPhase_false_trace (env : Nat → Bool) :
    ∀ line i f s,
      (readPhase false env line i f s).2.2 = readTraceP env line s.nreads := by
  intro line
  induction line with
  | nil => intro i f s; rfl
  | cons pr rest ih =>
      intro i f s
      obtain ⟨c, ch⟩ := pr
      by_cases hH : c = 'H'
      · cases hv : env s.nreads with
        | true =>
            simp [readPhase, readTraceP, hH, hv, ih]
        | false =>
            simp [readPhase, readTraceP, hH, hv, ih]
      · by_cases hL : c = 'L'
        · cases hv : env s.nreads with
          | true => simp [readPhase, readTraceP, hH, hL, hv, ih]
          | false => simp [readPhase, readTraceP, hH, hL, hv, ih]
        · simp [readPhase, readTraceP, hH, hL, ih]

theorem setAllInputs_events :
    ∀ (pins : List Nat) (s : Sim) (e : Ev),
      e ∈ (setAllInputs pins s).2 → writeOrMode e = true := by
  intro pins
  induction pins with
  | nil => intro s e he; simp [setAllInputs] at he
  | cons ch rest ih =>
      intro s e he
      simp only [setAllInputs, setMode, List.mem_append, List.mem_singleton] at he
      rcases he with rfl | he
      · rfl
      · exact ih _ e he

theorem setAllPinsToInput_events (pins : List Nat) (s : Sim) (e : Ev)
    (he : e ∈ (setAllPinsToInput pins s).2) : writeOrMode e = true := by
  simp only [setAllPinsToInput, setMode, List.mem_append, List.mem_singleton] at he
  rcases he with (he | rfl) | rfl
  · exact setAllInputs_events pins s e he
  · rfl
  · rfl

theorem singleTest_false_no_msg (line : List (Char × Nat)) (tn : Nat)
    (env : Nat → Bool) (s : Sim) :
    ∀ e ∈ (singleTest line tn false env s).2.2, isMsg e = false := by
  intro e he
  simp only [singleTest] at he
  rw [groundPhase_trace, powerPhase_trace, inputPhase_trace, outputPhase_trace,
    pulseSet_trace, pulseRestore_trace, readPhase_false_trace] at he
  simp only [Bool.false_eq_true, if_false, List.nil_append, List.mem_append,
    List.mem_cons, List.mem_singleton, List.not_mem_nil, or_false] at he
  rcases he with ((((((h | h) | h) | h) | h) | h) | h) | h
  · exact (writeOrMode_not_wait e (groundTraceP_events line 0 e h)).2
  · exact (writeOrMode_not_wait e (powerTraceP_events line e h)).2
  · exact (writeOrMode_not_wait e (inputTraceP_events line e h)).2
  · exact (writeOrMode_not_wait e (outputTraceP_events line e h)).2
  · exact (writeOrMode_not_wait e (pulseSetTrace_events line e h)).2
  · split at h
    · rcases List.mem_cons.1 h with rfl | h
      · rfl
      · exact (writeOrMode_not_wait e (pulseRestoreTrace_events line e h)).2
    · simp at h
  · subst h
    rfl
  · obtain ⟨p, v, rfl⟩ := readTraceP_events env line _ e h
    rfl

theorem runVectors_ok_no_msg (pins : List Nat) (n : Nat) (name : List Char)
    (env : Nat → Bool) :
    ∀ fuel p tn s,
      (runVectors pins n name false env fuel p tn s).out = TCOut.ok →
      ∀ e ∈ (runVectors pins n name false env fuel p tn s).tr, isMsg e = false := by
  intro fuel
  induction fuel with
  | zero => intro p tn s hout; simp [runVectors] at hout
  | succ m ih =>
      intro p tn s hout e he
      cases hread : readVec n true [] (skipSpaces p) with
      | done => simp only [runVectors, hread] at he; simp at he
      | bad c => simp only [runVectors, hread] at hout; simp at hout
      | ok line p2 =>
          by_cases hsp : isspaceC (peekC p2) = true
          · simp only [runVectors, hread, hsp, if_true] at hout he
            rcases List.mem_append.1 he with h | h
            · exact singleTest_false_no_msg (line.zip pins) tn env s e h
            · exact ih p2 (tn + 1) _ hout e h
          · simp only [runVectors, hread, hsp, Bool.false_eq_true, if_false] at hout
            simp at hout

theorem testChipRun_detected (name : List Char) (pins : List Nat) (v : Nat)
    (env : Nat → Bool) (p2 : List Char) (s : Sim)
    (hok : (testChipRun name pins v false env p2 s).out = TCOut.ok) :
    ((Ev.msg (String.mk name ++ " detected.")) ∈
        (testChipRun name pins v false env p2 s).tr) ↔
      ∀ f ∈ (testChipRun name pins v false env p2 s).fails, f = 0 := by
  simp only [testChipRun] at hok ⊢
  set r := runVectors pins v name false env (p2.length + 1) p2 0
    (setAllPinsToInput pins s).1 with hr
  cases hout : r.out with
  | ok =>
      simp only [hout]
      by_cases hf : r.fails.sum = 0
      · constructor
        · intro _
          exact List.sum_eq_zero_iff.1 hf
        · intro _
          simp [List.mem_append, hf]
      · constructor
        · intro hmem
          exfalso
          simp only [List.mem_append] at hmem
          rcases hmem with (((h | h) | h) | h) | h
          · have := (writeOrMode_not_wait _ (setAllPinsToInput_events pins s _ h)).2
            simp [isMsg] at this
          · have hm := runVectors_ok_no_msg pins v name env (p2.length + 1) p2 0
              (setAllPinsToInput pins s).1 (by rw [← hr]; exact hout) _
              (by rw [← hr]; exact h)
            simp [isMsg] at hm
          · have := (writeOrMode_not_wait _ (setAllPinsToInput_events pins r.sim _ h)).2
            simp [isMsg] at this
          · rw [if_neg hf] at h
            simp at h
          · simp [Bool.false_eq_true] at h
        · intro hall
          exact absurd (List.sum_eq_zero_iff.2 hall) hf
  | noChip => simp only [hout] at hok; cases hok
  | unsupported => simp only [hout] at hok; cases hok
  | badChar c => simp only [hout] at hok; cases hok
  | noSpace => simp only [hout] at hok; cases hok
  | fuelOut => simp only [hout] at hok; cases hok

/-- C5: a chip is reported "detected" by a non-verbose test (this is what
`scanChips` runs) exactly when every vector of the record executed with
zero pin mismatches; any mismatch anywhere suppresses the report. -/
theorem testChip_detected_iff (env : Nat → Bool) (g : Glob) (s : Sim)
    (hok : (testChip false env g s).out = TCOut.ok) :
    ((Ev.msg (String.mk g.chipName ++ " detected.")) ∈ (testChip false env g s).tr) ↔
      ∀ f ∈ (testChip false env g s).fails, f = 0 := by
  cases hchip : g.chipInfo with
  | none => simp [testChip, hchip] at hok
  | some p =>
      cases hmf : mapFor (pinsOf (peekC p) (peekC p.tail)) with
      | none => simp [testChip, hchip, hmf] at hok
      | some pins =>
          simp only [testChip, hchip, hmf] at hok ⊢
          simp only [Bool.false_eq_true, if_false, List.nil_append]
          exact testChipRun_detected g.chipName pins _ env p.tail.tail s hok

/-- Witness for `testChip_detected_iff` on a record whose single vector
passes with the all-high read oracle. -/
theorem testChip_detected_iff_witness :
    (testChip false (fun _ => true)
        ⟨[], 0, some ("04\n0HHV\n&".toList), ['X', '1']⟩ initSim).out = TCOut.ok ∧
    (((Ev.msg (String.mk ['X', '1'] ++ " detected.")) ∈
        (testChip false (fun _ => true)
          ⟨[], 0, some ("04\n0HHV\n&".toList), ['X', '1']⟩ initSim).tr) ↔
      ∀ f ∈ (testChip false (fun _ => true)
          ⟨[], 0, some ("04\n0HHV\n&".toList), ['X', '1']⟩ initSim).fails, f = 0) :=
  ⟨by decide,
    testChip_detected_iff (fun _ => true)
      ⟨[], 0, some ("04\n0HHV\n&".toList), ['X', '1']⟩ initSim (by decide)⟩

/-! ### What a scan does to skipped records -/

theorem scanLoop_tested_pins (pins : Nat) (env : Nat → Bool) :
    ∀ (cs : List Char) (got : Option (List Char)) (g : Glob) (s : Sim) (count : Nat),
      ∀ t ∈ (scanLoop pins env cs got g s count).tested, t.2 = pins := by
  intro cs
  induction cs with
  | nil => intro got g s count t ht; simp [scanLoop] at ht
  | cons c rest ih =>
      intro got g s count t ht
      simp only [scanLoop] at ht
      by_cases h0 : c = NUL ∨ c = '&'
      · rw [if_pos h0] at ht
        simp at ht
      · rw [if_neg h0] at ht
        by_cases hd : c = '$'
        · rw [if_pos hd] at ht
          exact ih _ _ _ _ t ht
        · rw [if_neg hd] at ht
          by_cases hn : c = '\n'
          · rw [if_pos hn] at ht
            cases got with
            | none => exact ih _ _ _ _ t ht
            | some acc =>
                cases hmf : mapFor (pinsOf (peekC rest) (peekC rest.tail)) with
                | none =>
                    simp only [hmf] at ht
                    simp at ht
                | some pmap =>
                    simp only [hmf] at ht
                    by_cases hp : pins = pinsOf (peekC rest) (peekC rest.tail)
                    · rw [if_pos hp] at ht
                      simp only [List.mem_cons] at ht
                      rcases ht with rfl | ht
                      · exact hp.symm
                      · exact ih _ _ _ _ t ht
                    · rw [if_neg hp] at ht
                      exact ih _ _ _ _ t ht
          · rw [if_neg hn] at ht
            cases got with
            | none => exact ih _ _ _ _ t ht
            | some acc => exact ih _ _ _ _ t ht

theorem scanLoop_silent (pins : Nat) (env : Nat → Bool) :
    ∀ (cs : List Char) (got : Option (List Char)) (g : Glob) (s : Sim) (count : Nat),
      (scanLoop pins env cs got g s count).tested = [] →
      ∀ e ∈ (scanLoop pins env cs got g s count).tr, isMsg e = true := by
  intro cs
  induction cs with
  | nil =>
      intro got g s count _ e he
      simp only [scanLoop, List.mem_singleton] at he
      subst he
      rfl
  | cons c rest ih =>
      intro got g s count h0t e he
      simp only [scanLoop] at he h0t
      by_cases h0 : c = NUL ∨ c = '&'
      · rw [if_pos h0] at he
        simp only [List.mem_singleton] at he
        subst he
        rfl
      · rw [if_neg h0] at he h0t
        by_cases hd : c = '$'
        · rw [if_pos hd] at he h0t
          exact ih _ _ _ _ h0t e he
        · rw [if_neg hd] at he h0t
          by_cases hn : c = '\n'
          · rw [if_pos hn] at he h0t
            cases got with
            | none => exact ih _ _ _ _ h0t e he
            | some acc =>
                cases hmf : mapFor (pinsOf (peekC rest) (peekC rest.tail)) with
                | none =>
                    simp only [hmf] at he
                    simp only [List.mem_singleton] at he
                    subst he
                    rfl
                | some pmap =>
                    simp only [hmf] at he h0t
                    by_cases hp : pins = pinsOf (peekC rest) (peekC rest.tail)
                    · rw [if_pos hp] at h0t
                      simp at h0t
                    · rw [if_neg hp] at he h0t
                      exact ih _ _ _ _ h0t e he
          · rw [if_neg hn] at he h0t
            cases got with
            | none => exact ih _ _ _ _ h0t e he
            | some acc => exact ih _ _ _ _ h0t e he

/-- C2 counterexample: scanning for 16-pin chips over a catalog holding
one 14-pin record tries no candidate and produces no channel activity,
yet it rewrites the `numberOfPins`, `pinsMap` and `chipName` globals
while visiting the skipped record — "no program state is modified" is
false on the code. -/
theorem scanChips_modifies_globals_on_skip :
    (scanChips 16 (fun _ => false) ("$A\n14\nLHC100G001CHLV\n&".toList)
      ⟨[], 16, none, []⟩ initSim).count = 0 ∧
    (scanChips 16 (fun _ => false) ("$A\n14\nLHC100G001CHLV\n&".toList)
      ⟨[], 16, none, []⟩ initSim).tested = [] ∧
    chanEvs (scanChips 16 (fun _ => false) ("$A\n14\nLHC100G001CHLV\n&".toList)
      ⟨[], 16, none, []⟩ initSim).tr = [] ∧
    (scanChips 16 (fun _ => false) ("$A\n14\nLHC100G001CHLV\n&".toList)
      ⟨[], 16, none, []⟩ initSim).glob.numberOfPins = 14 ∧
    (⟨[], 16, none, []⟩ : Glob).numberOfPins = 16 ∧
    (scanChips 16 (fun _ => false) ("$A\n14\nLHC100G001CHLV\n&".toList)
      ⟨[], 16, none, []⟩ initSim).glob.chipName = ['A'] ∧
    (scanChips 16 (fun _ => false) ("$A\n14\nLHC100G001CHLV\n&".toList)
      ⟨[], 16, none, []⟩ initSim).glob.pinsMap = chipPins14 := by
  decide

/-- C2 (amended): during `scanChips` only records whose declared pin
count equals the requested one are ever tested; and in any scan — mixed
catalogs included — visiting a skipped record is invisible except to the
globals: reaching the newline of a record line whose declared pin count
differs from the requested one yields exactly the result of resuming the
scan on the rest of the catalog from the same pin state and the same
candidate count (so the skipped record contributes no event to the
trace, no entry to the tested list, and no pin write, mode change or
read), while `chipName`, `numberOfPins` and `pinsMap` are overwritten
with the skipped record's data. -/
theorem scanChips_skips_only_channelwise (pins : Nat) (env : Nat → Bool) :
    (∀ (catalog : List Char) (g : Glob) (s : Sim),
        ∀ t ∈ (scanChips pins env catalog g s).tested, t.2 = pins) ∧
    (∀ (rest acc : List Char) (g : Glob) (s : Sim) (count : Nat) (pmap : List Nat),
        mapFor (pinsOf (peekC rest) (peekC rest.tail)) = some pmap →
        pins ≠ pinsOf (peekC rest) (peekC rest.tail) →
        scanLoop pins env ('\n' :: rest) (some acc) g s count =
          scanLoop pins env rest none
            { g with chipName := acc,
                     numberOfPins := pinsOf (peekC rest) (peekC rest.tail),
                     pinsMap := pmap } s count) := by
  constructor
  · intro catalog g s t ht
    exact scanLoop_tested_pins pins env catalog none g s 0 t
      (by simpa [scanChips] using ht)
  · intro rest acc g s count pmap hm hne
    simp only [scanLoop, hm]
    rw [if_neg hne, if_neg (show ¬(('\n' : Char) = NUL ∨ ('\n' : Char) = '&') by decide),
      if_neg (show ('\n' : Char) ≠ '$' by decide), if_true]

/-- Witness for the skip step: a 14-pin record line visited by a 16-pin
scan resumes the scan untouched apart from the global overwrite. -/
theorem scanChips_skips_only_channelwise_witness :
    scanLoop 16 (fun _ => true) ('\n' :: ("14\nLHV\n&".toList)) (some ['B'])
        ⟨[], 16, none, []⟩ initSim 0 =
      scanLoop 16 (fun _ => true) ("14\nLHV\n&".toList) none
        ⟨chipPins14,
          pinsOf (peekC ("14\nLHV\n&".toList)) (peekC ("14\nLHV\n&".toList).tail),
          none, ['B']⟩ initSim 0 :=
  (scanChips_skips_only_channelwise 16 (fun _ => true)).2 ("14\nLHV\n&".toList)
    ['B'] ⟨[], 16, none, []⟩ initSim 0 chipPins14 (by decide) (by decide)

/-! ### Name lookup: cursor position, clearing, and truncation -/

/-- Characters that may appear inside a record name (anything else ends
the name or the catalog). -/
def cleanName (nm : List Char) : Prop :=
  ∀ c ∈ nm, c ≠ NUL ∧ c ≠ '&' ∧ c ≠ '\n' ∧ c ≠ '$'

instance (nm : List Char) : Decidable (cleanName nm) := by
  unfold cleanName; infer_instance

/-- Characters that do not abort a catalog scan. -/
def cleanPre (pre : List Char) : Prop :=
  ∀ c ∈ pre, c ≠ NUL ∧ c ≠ '&'

instance (pre : List Char) : Decidable (cleanPre pre) := by
  unfold cleanPre; infer_instance

/-- Fold the code's guarded name-buffer write over a whole name. -/
def accApp (acc : List Char) : List Char → List Char
  | [] => acc
  | c :: r => accApp (accPush acc c) r

theorem accApp_take :
    ∀ (nm acc : List Char), acc.length ≤ MAX_INPUT →
      accApp acc nm = (acc ++ nm).take MAX_INPUT := by
  intro nm
  induction nm with
  | nil =>
      intro acc hl
      simp only [accApp, List.append_nil]
      exact (List.take_of_length_le hl).symm
  | cons c r ih =>
      intro acc hl
      simp only [accApp, accPush]
      by_cases hlt : acc.length < MAX_INPUT
      · rw [if_pos hlt, ih (acc ++ [c]) (by simp; omega)]
        simp [List.append_assoc]
      · rw [if_neg hlt]
        have h16 : acc.length = MAX_INPUT := by omega
        rw [ih acc hl]
        rw [List.take_append_of_le_length (by omega),
          List.take_append_of_le_length (by omega)]

theorem accApp_nil (nm : List Char) : accApp [] nm = nm.take MAX_INPUT := by
  have := accApp_take nm [] (by simp)
  simpa using this

theorem accPush_le (acc : List Char) (c : Char) (h : acc.length ≤ MAX_INPUT) :
    (accPush acc c).length ≤ MAX_INPUT := by
  simp only [accPush]
  by_cases hlt : acc.length < MAX_INPUT
  · rw [if_pos hlt]
    simp
    omega
  · rw [if_neg hlt]
    exact h

theorem searchLoop_consume (q : List Char) (g : Glob) :
    ∀ (nm rest0 acc : List Char), cleanName nm →
      searchLoop q (nm ++ rest0) (some acc) g =
        searchLoop q rest0 (some (accApp acc nm)) g := by
  intro nm
  induction nm with
  | nil => intro rest0 acc _; rfl
  | cons c r ih =>
      intro rest0 acc hcl
      obtain ⟨h0, h1, h2, h3⟩ := hcl c (List.mem_cons_self _ _)
      have hrest : cleanName r := fun x hx => hcl x (List.mem_cons_of_mem _ hx)
      simp only [List.cons_append, searchLoop]
      rw [if_neg (by tauto), if_neg h3, if_neg h2]
      exact ih rest0 (accPush acc c) hrest

theorem searchLoop_false (q : List Char) (g : Glob) :
    ∀ (cs : List Char) (got : Option (List Char)) (g2 : Glob),
      searchLoop q cs got g = (false, g2) →
      g2.chipInfo = none ∧ g2.chipName = [] := by
  intro cs
  induction cs with
  | nil =>
      intro got g2 h
      simp only [searchLoop, Prod.mk.injEq] at h
      rw [← h.2]
      exact ⟨rfl, rfl⟩
  | cons c rest ih =>
      intro got g2 h
      simp only [searchLoop] at h
      by_cases h0 : c = NUL ∨ c = '&'
      · rw [if_pos h0] at h
        simp only [Prod.mk.injEq] at h
        rw [← h.2]
        exact ⟨rfl, rfl⟩
      · rw [if_neg h0] at h
        by_cases hd : c = '$'
        · rw [if_pos hd] at h
          exact ih _ _ h
        · rw [if_neg hd] at h
          by_cases hn : c = '\n'
          · rw [if_pos hn] at h
            cases got with
            | none => exact ih _ _ h
            | some acc =>
                dsimp only at h
                by_cases hq : q = acc
                · rw [if_pos hq] at h
                  simp at h
                · rw [if_neg hq] at h
                  exact ih _ _ h
          · rw [if_neg hn] at h
            cases got with
            | none => exact ih _ _ h
            | some acc => exact ih _ _ h

theorem searchLoop_found_shape (q : List Char) (g : Glob) :
    ∀ (cs : List Char) (got : Option (List Char)) (g2 : Glob),
      searchLoop q cs got g = (true, g2) →
      ((∃ pre nm rest, cs = pre ++ '$' :: (nm ++ '\n' :: rest) ∧ cleanName nm ∧
          q = nm.take MAX_INPUT ∧ g2.chipInfo = some rest ∧ g2.chipName = q) ∨
       (∃ acc nm rest, got = some acc ∧ cs = nm ++ '\n' :: rest ∧ cleanName nm ∧
          q = accApp acc nm ∧ g2.chipInfo = some rest ∧ g2.chipName = q)) := by
  intro cs
  induction cs with
  | nil =>
      intro got g2 h
      simp only [searchLoop, Prod.mk.injEq] at h
      cases h.1
  | cons c rest ih =>
      intro got g2 h
      simp only [searchLoop] at h
      by_cases h0 : c = NUL ∨ c = '&'
      · rw [if_pos h0] at h
        simp only [Prod.mk.injEq] at h
        cases h.1
      · rw [if_neg h0] at h
        by_cases hd : c = '$'
        · rw [if_pos hd] at h
          rcases ih _ _ h with ⟨pre, nm, r2, hcs, hcl, hq, hinfo, hname⟩ |
            ⟨acc0, nm, r2, hacc0, hcs, hcl, hq, hinfo, hname⟩
          · subst hd
            exact Or.inl ⟨'$' :: pre, nm, r2, by simp [hcs], hcl, hq, hinfo, hname⟩
          · injection hacc0 with h'
            subst h'
            subst hd
            exact Or.inl ⟨[], nm, r2, by simp [hcs], hcl,
              by rw [hq, accApp_nil], hinfo, hname⟩
        · rw [if_neg hd] at h
          by_cases hn : c = '\n'
          · rw [if_pos hn] at h
            cases got with
            | none =>
                rcases ih _ _ h with ⟨pre, nm, r2, hcs, hcl, hq, hinfo, hname⟩ | hbad
                · exact Or.inl ⟨c :: pre, nm, r2, by simp [hcs], hcl, hq, hinfo, hname⟩
                · obtain ⟨_, _, _, habs, _⟩ := hbad
                  cases habs
            | some acc =>
                dsimp only at h
                by_cases hq : q = acc
                · rw [if_pos hq] at h
                  simp only [Prod.mk.injEq] at h
                  subst hn
                  refine Or.inr ⟨acc, [], rest, rfl, by simp, by simp [cleanName],
                    by simpa [accApp] using hq, ?_, ?_⟩
                  · rw [← h.2]
                  · rw [← h.2]
                    exact hq.symm
                · rw [if_neg hq] at h
                  rcases ih _ _ h with ⟨pre, nm, r2, hcs, hcl, hq2, hinfo, hname⟩ | hbad
                  · exact Or.inl ⟨c :: pre, nm, r2, by simp [hcs], hcl, hq2, hinfo, hname⟩
                  · obtain ⟨_, _, _, habs, _⟩ := hbad
                    cases habs
          · rw [if_neg hn] at h
            cases got with
            | none =>
                rcases ih _ _ h with ⟨pre, nm, r2, hcs, hcl, hq, hinfo, hname⟩ | hbad
                · exact Or.inl ⟨c :: pre, nm, r2, by simp [hcs], hcl, hq, hinfo, hname⟩
                · obtain ⟨_, _, _, habs, _⟩ := hbad
                  cases habs
            | some acc =>
                rcases ih _ _ h with ⟨pre, nm, r2, hcs, hcl, hq, hinfo, hname⟩ |
                  ⟨acc1, nm, r2, hacc1, hcs, hcl, hq, hinfo, hname⟩
                · exact Or.inl ⟨c :: pre, nm, r2, by simp [hcs], hcl, hq, hinfo, hname⟩
                · injection hacc1 with h'
                  subst h'
                  refine Or.inr ⟨acc, c :: nm, r2, rfl, by simp [hcs], ?_,
                    by simpa [accApp] using hq, hinfo, hname⟩
                  intro x hx
                  rcases List.mem_cons.1 hx with rfl | hx
                  · exact ⟨by tauto, by tauto, hn, hd⟩
                  · exact hcl x hx

theorem searchLoop_dollar (q cs : List Char) (got : Option (List Char)) (g : Glob) :
    searchLoop q ('$' :: cs) got g = searchLoop q cs (some []) g := rfl

theorem searchLoop_newline_some (q cs acc : List Char) (g : Glob) :
    searchLoop q ('\n' :: cs) (some acc) g =
      if q = acc then (true, { g with chipInfo := some cs, chipName := acc })
      else searchLoop q cs none g := rfl

theorem searchLoop_finds (q : List Char) (g : Glob) :
    ∀ (pre : List Char) (got : Option (List Char)) (nm rest : List Char),
      cleanPre pre → cleanName nm → q = nm.take MAX_INPUT →
      (searchLoop q (pre ++ '$' :: (nm ++ '\n' :: rest)) got g).1 = true ∧
      ∃ rest2,
        (searchLoop q (pre ++ '$' :: (nm ++ '\n' :: rest)) got g).2.chipInfo =
          some rest2 ∧ rest.length ≤ rest2.length := by
  intro pre
  induction pre with
  | nil =>
      intro got nm rest _ hcl hq
      rw [List.nil_append, searchLoop_dollar,
        searchLoop_consume q g nm ('\n' :: rest) [] hcl, searchLoop_newline_some]
      rw [if_pos (by rw [hq, accApp_nil])]
      exact ⟨rfl, rest, rfl, Nat.le_refl _⟩
  | cons c pre' ih =>
      intro got nm rest hpre hcl hq
      obtain ⟨hc0, hc1⟩ := hpre c (List.mem_cons_self _ _)
      have hpre' : cleanPre pre' := fun x hx => hpre x (List.mem_cons_of_mem _ hx)
      simp only [List.cons_append, searchLoop]
      rw [if_neg (by tauto)]
      by_cases hd : c = '$'
      · rw [if_pos hd]
        exact ih (some []) nm rest hpre' hcl hq
      · rw [if_neg hd]
        by_cases hn : c = '\n'
        · rw [if_pos hn]
          cases got with
          | none => exact ih none nm rest hpre' hcl hq
          | some acc =>
              dsimp only
              by_cases hqa : q = acc
              · rw [if_pos hqa]
                refine ⟨rfl, pre' ++ '$' :: (nm ++ '\n' :: rest), rfl, ?_⟩
                simp [List.length_append]
                omega
              · rw [if_neg hqa]
                exact ih none nm rest hpre' hcl hq
        · rw [if_neg hn]
          cases got with
          | none => exact ih none nm rest hpre' hcl hq
          | some acc => exact ih (some (accPush acc c)) nm rest hpre' hcl hq

/-- Every line completed by `processIncomingByte`, and the pending buffer,
stay within `MAX_INPUT - 1` characters: bytes arriving at a full buffer
are dropped. -/
theorem procBytes_len :
    ∀ (bytes acc : List Char), acc.length ≤ MAX_INPUT - 1 →
      (∀ l ∈ (procBytes bytes acc).1, l.length ≤ MAX_INPUT - 1) ∧
      (procBytes bytes acc).2.length ≤ MAX_INPUT - 1 := by
  intro bytes
  induction bytes with
  | nil =>
      intro acc h
      refine ⟨?_, h⟩
      intro l hl
      simp [procBytes] at hl
  | cons b rest ih =>
      intro acc h
      by_cases hn : b = '\n'
      · obtain ⟨h1, h2⟩ := ih [] (by simp)
        cases hp : procBytes rest [] with
        | mk ls fin =>
            rw [hp] at h1 h2
            simp only [procBytes]
            rw [if_pos hn, hp]
            dsimp only
            refine ⟨?_, h2⟩
            intro l hl
            rcases List.mem_cons.1 hl with rfl | hl2
            · exact h
            · exact h1 l hl2
      · by_cases hr : b = '\r' ∨ b = ' '
        · simp only [procBytes]
          rw [if_neg hn, if_pos hr]
          exact ih acc h
        · simp only [procBytes]
          rw [if_neg hn, if_neg hr]
          refine ih _ ?_
          by_cases hlt : acc.length < MAX_INPUT - 1
          · rw [if_pos hlt]
            simp
            omega
          · rw [if_neg hlt]
            exact h

/-- C3 counterexample: on a successful lookup the cursor (`chipInfo`) is
positioned at the START of the pin-count field, not just past it: after
finding `$7400`, `chipInfo` still begins with the two pin-count digits
`1`, `4` (which `testChip` then parses from that very position). -/
theorem searchForChip_cursor_counterexample :
    searchForChip ['7', '4', '0', '0']
        ('$' :: '7' :: '4' :: '0' :: '0' :: '\n' ::
         '1' :: '4' :: '\n' :: 'L' :: 'H' :: 'V' :: '\n' :: '&' :: [])
        ⟨[], 0, none, []⟩ =
      (true, ⟨[], 0,
        some ('1' :: '4' :: '\n' :: 'L' :: 'H' :: 'V' :: '\n' :: '&' :: []),
        ['7', '4', '0', '0']⟩) := by
  decide

/-- C3 (amended): name lookup is a linear scan of the catalog; on failure
the current-chip cursor is cleared together with the chip name; on success
the catalog decomposes as a prefix, a `$`-started name line matching the
query (after length truncation), and the cursor is positioned right after
the name line's newline, i.e. at the start of the pin-count field (not
past it); and a record whose truncated name equals the query is always
found, with the cursor left no deeper in the stream than that record's
own remainder (the first such record wins). -/
theorem searchForChip_cursor (q : List Char) :
    (∀ catalog g g2, searchForChip q catalog g = (false, g2) →
        g2.chipInfo = none ∧ g2.chipName = []) ∧
    (∀ catalog g g2, searchForChip q catalog g = (true, g2) →
        ∃ pre nm rest, catalog = pre ++ '$' :: (nm ++ '\n' :: rest) ∧ cleanName nm ∧
          q = nm.take MAX_INPUT ∧ g2.chipInfo = some rest ∧ g2.chipName = q) ∧
    (∀ pre nm rest g, cleanPre pre → cleanName nm → q = nm.take MAX_INPUT →
        (searchForChip q (pre ++ '$' :: (nm ++ '\n' :: rest)) g).1 = true ∧
        ∃ rest2, (searchForChip q (pre ++ '$' :: (nm ++ '\n' :: rest)) g).2.chipInfo =
          some rest2 ∧ rest.length ≤ rest2.length) := by
  refine ⟨?_, ?_, ?_⟩
  · intro catalog g g2 h
    simp only [searchForChip] at h
    exact searchLoop_false q g catalog none g2 h
  · intro catalog g g2 h
    simp only [searchForChip] at h
    rcases searchLoop_found_shape q g catalog none g2 h with
      ⟨pre, nm, rest, hcs, hcl, hq, hinfo, hname⟩ | ⟨acc, _, _, habs, _⟩
    · exact ⟨pre, nm, rest, hcs, hcl, hq, hinfo, hname⟩
    · cases habs
  · intro pre nm rest g hpre hcl hq
    exact searchLoop_finds q g pre none nm rest hpre hcl hq

/-- Concrete instance of the amended C3 statement: the record `$A` is
found from an empty prefix and the cursor lands on the record body. -/
theorem searchForChip_cursor_witness :
    (searchForChip ['A'] ([] ++ '$' :: (['A'] ++ '\n' :: ['7', '7', '&']))
        ⟨[], 0, none, []⟩).1 = true ∧
    ∃ rest2, (searchForChip ['A'] ([] ++ '$' :: (['A'] ++ '\n' :: ['7', '7', '&']))
        ⟨[], 0, none, []⟩).2.chipInfo = some rest2 ∧
      (['7', '7', '&'] : List Char).length ≤ rest2.length :=
  (searchForChip_cursor ['A']).2.2 [] ['A'] ['7', '7', '&'] ⟨[], 0, none, []⟩
    (by decide) (by decide) (by decide)

/-- C10: catalog record names are collected through the guarded buffer
write, so lookup compares the query against the name truncated to
`MAX_INPUT` (16) characters: on a record line the scan succeeds exactly
when the query equals the truncated name; any successful lookup leaves a
`chipName` of at most 16 characters; and serial input lines are capped at
`MAX_INPUT - 1` (15) characters, bytes beyond that being dropped. -/
theorem name_and_input_truncation (q nm rest : List Char) (g : Glob)
    (hcl : cleanName nm) :
    (searchForChip q ('$' :: (nm ++ '\n' :: rest)) g =
        if q = nm.take MAX_INPUT then
          (true, { g with chipInfo := some rest, chipName := nm.take MAX_INPUT })
        else searchLoop q rest none g) ∧
    (∀ catalog g0 g2, searchForChip q catalog g0 = (true, g2) →
        g2.chipName.length ≤ MAX_INPUT) ∧
    (∀ bytes acc, acc.length ≤ MAX_INPUT - 1 →
        (∀ l ∈ (procBytes bytes acc).1, l.length ≤ MAX_INPUT - 1) ∧
        (procBytes bytes acc).2.length ≤ MAX_INPUT - 1) := by
  refine ⟨?_, ?_, ?_⟩
  · simp only [searchForChip]
    rw [searchLoop_dollar, searchLoop_consume q g nm ('\n' :: rest) [] hcl,
      accApp_nil, searchLoop_newline_some]
  · intro catalog g0 g2 h
    simp only [searchForChip] at h
    rcases searchLoop_found_shape q g0 catalog none g2 h with
      ⟨pre, nm2, rest2, _, _, hq, _, hname⟩ | ⟨_, _, _, habs, _⟩
    · rw [hname, hq, List.length_take]
      exact Nat.min_le_left _ _
    · cases habs
  · exact procBytes_len

/-- Concrete instance of C10: a 20-character record name is found by the
16-character truncated query. -/
theorem name_and_input_truncation_witness :
    (searchForChip ("ABCDEFGHIJKLMNOP".toList)
        ('$' :: (("ABCDEFGHIJKLMNOPQRST".toList) ++ '\n' :: ['&']))
        ⟨[], 0, none, []⟩).1 = true := by
  have h := (name_and_input_truncation ("ABCDEFGHIJKLMNOP".toList)
      ("ABCDEFGHIJKLMNOPQRST".toList) ['&'] ⟨[], 0, none, []⟩ (by decide)).1
  rw [h, if_pos (by decide)]

end ICTester
